import Mathlib

/-!
Verification of the `make_it_flat` documentation crawler
(`src/fetch/main.py`, `src/fetch/extractors/__init__.py`,
`src/fetch/extractors/webdoc.py`).

Python strings are modelled as `List Char`; the pieces of the Python
standard library that the crawler leans on (`urllib.parse.urlparse`,
`urllib.parse.urljoin`, `str.replace`, `str.strip`, list slicing) are
reproduced here following CPython's `urllib/parse.py` as shipped with the
Python 3.10+ interpreters the program runs on.  BeautifulSoup queries are
modelled over an explicit DOM tree.
-/

abbrev Str := List Char

/-- Shorthand for turning a Lean string literal into the `List Char`
representation used throughout. -/
def pys (s : String) : Str := s.data

/-- Python's substring test `needle in haystack` (`str.__contains__`). -/
def strContains (haystack needle : Str) : Bool :=
  haystack.tails.any (fun t => needle.isPrefixOf t)

/-- Python's `str.startswith` for a single literal. -/
def pyStartsWith (s pre : Str) : Bool := pre.isPrefixOf s

/-- `url.startswith(('http://', 'https://'))` from `scrape_page` / `main`. -/
def isHttpAbs (s : Str) : Bool :=
  pyStartsWith s (pys "http://") || pyStartsWith s (pys "https://")

/-- ASCII lower-casing of one character, the effect of Python's
`str.lower()` on the ASCII-only strings it is applied to here. -/
def pyLowerChar (c : Char) : Char :=
  if 65 ≤ c.toNat ∧ c.toNat ≤ 90 then Char.ofNat (c.toNat + 32) else c

/-- The `while normalized.endswith('/'): normalized = normalized[:-1]`
loop of `normalize_url`: strip every trailing `'/'`. -/
def rstripSlash (l : Str) : Str :=
  (l.reverse.dropWhile (fun c => c = '/')).reverse

/-- Python's `str.strip()` (whitespace from both ends). -/
def pyStrip (l : Str) : Str :=
  ((l.dropWhile Char.isWhitespace).reverse.dropWhile Char.isWhitespace).reverse

/-- Split at the first occurrence of `c`: `some` second component iff `c`
occurs.  Models Python's `str.split(c, 1)` / `str.find(c)` pattern. -/
def splitFirstOn (c : Char) (l : Str) : Str × Option Str :=
  match l with
  | [] => ([], none)
  | x :: xs =>
    if x = c then ([], some xs)
    else
      let r := splitFirstOn c xs
      (x :: r.1, r.2)

/-- Python's single-character `str.split(sep)` (always non-empty result). -/
def pySplitChar (c : Char) : Str → List Str
  | [] => [[]]
  | x :: xs =>
    if x = c then [] :: pySplitChar c xs
    else
      match pySplitChar c xs with
      | [] => [[x]]          -- unreachable: split is never empty
      | p :: rest => (x :: p) :: rest

/-- Python's `sep.join(parts)` for a single-character separator. -/
def pyJoinChar (c : Char) (parts : List Str) : Str :=
  match parts with
  | [] => []
  | [p] => p
  | p :: rest => p ++ c :: pyJoinChar c rest

/-- Python's whitespace `str.split()` (drops empty fields); used for the
way BeautifulSoup tokenises a `class` attribute into individual classes. -/
def pySplitWS : Str → List Str
  | [] => []
  | x :: xs =>
    if x.isWhitespace then pySplitWS xs
    else
      match xs with
      | [] => [[x]]
      | y :: _ =>
        if y.isWhitespace then [x] :: pySplitWS xs
        else
          match pySplitWS xs with
          | [] => [[x]]      -- unreachable: xs starts with a token char
          | t :: rest => (x :: t) :: rest

/-- Fuelled worker for Python's `str.replace`. -/
def pyReplaceAux (pat rep : Str) : Nat → Str → Str
  | _, [] => []
  | 0, s => s
  | fuel + 1, s@(x :: xs) =>
    if pat ≠ [] ∧ pat.isPrefixOf s then
      rep ++ pyReplaceAux pat rep fuel (s.drop pat.length)
    else
      x :: pyReplaceAux pat rep fuel xs

/-- Python's `str.replace(pat, rep)` — all non-overlapping occurrences,
left to right.  (The program only uses non-empty patterns; an empty
pattern is returned unchanged here.) -/
def pyReplace (s pat rep : Str) : Str :=
  if pat = [] then s else pyReplaceAux pat rep s.length s

/-- Python list slicing `l[:m]` for an `int` bound `m` (negative bounds
count from the end, clamping at zero). -/
def pySliceTo (l : List α) (m : Int) : List α :=
  if m < 0 then l.take ((l.length : Int) + m).toNat
  else l.take m.toNat

/- ### `urllib.parse` -/

/-- ASCII alphabetic test (`c.isascii() and c.isalpha()` on one char). -/
def isAsciiAlpha (c : Char) : Bool :=
  (65 ≤ c.toNat && c.toNat ≤ 90) || (97 ≤ c.toNat && c.toNat ≤ 122)

/-- Characters legal in a URL scheme (`urllib.parse.scheme_chars`):
ASCII letters, digits and `+`, `-`, `.` (codepoints 43, 45, 46). -/
def isSchemeChar (c : Char) : Bool :=
  isAsciiAlpha c || (48 ≤ c.toNat && c.toNat ≤ 57) ||
  c.toNat = 43 || c.toNat = 45 || c.toNat = 46

/-- The WHATWG C0-control-or-space class stripped from the front of a URL
by `urlsplit` (codepoints `U+0000`–`U+0020`). -/
def isC0OrSpace (c : Char) : Bool := c.toNat ≤ 32

/-- The unsafe bytes `\t`, `\r`, `\n` that `urlsplit` deletes everywhere. -/
def isUnsafeUrlChar (c : Char) : Bool := c = '\t' || c = '\r' || c = '\n'

/-- The cleaning `urlsplit` applies before parsing: strip leading
C0-controls/spaces, then delete every tab, carriage return and newline. -/
def urlClean (l : Str) : Str :=
  (l.dropWhile isC0OrSpace).filter (fun c => ¬ isUnsafeUrlChar c)

/-- Scheme extraction step of `urlsplit`: on `s ++ ':' ++ rest` with a
valid scheme `s` return `(lower s, rest)`, otherwise `(default, url)`. -/
def splitScheme (url : Str) (dflt : Str) : Str × Str :=
  let pre := url.takeWhile (fun c => c ≠ ':')
  if pre.length = url.length then (dflt, url)   -- no colon at all
  else if 0 < pre.length ∧ isAsciiAlpha (url.headD ' ') = true ∧
      pre.all isSchemeChar = true then
    (pre.map pyLowerChar, url.drop (pre.length + 1))
  else (dflt, url)

/-- `_splitnetloc`: take the netloc up to the first `/`, `?` or `#`. -/
def isNetlocSep (c : Char) : Bool := c = '/' || c = '?' || c = '#'

/-- Result of `urllib.parse.urlsplit` (fragment included). -/
structure SplitResult where
  scheme : Str
  netloc : Str
  path : Str
  query : Str
  fragment : Str
deriving Repr, DecidableEq

/-- Netloc extraction step of `urlsplit`: if the remainder starts with
`//`, the netloc runs up to the first `/`, `?` or `#`. -/
def splitNetloc (url2 : Str) : Str × Str :=
  if (pys "//").isPrefixOf url2 then
    ((url2.drop 2).takeWhile (fun c => ¬ isNetlocSep c),
     (url2.drop 2).dropWhile (fun c => ¬ isNetlocSep c))
  else ([], url2)

/-- Fragment split of `urlsplit` (`url.split('#', 1)` when `'#' in url`). -/
def splitFragment (url3 : Str) : Str × Str :=
  match splitFirstOn '#' url3 with
  | (pre, some post) => (pre, post)
  | (pre, none) => (pre, [])

/-- Query split of `urlsplit` (`url.split('?', 1)` when `'?' in url`). -/
def splitQuery (url4 : Str) : Str × Str :=
  match splitFirstOn '?' url4 with
  | (pre, some post) => (pre, post)
  | (pre, none) => (pre, [])

/-- `urllib.parse.urlsplit(url, scheme=dflt)`.  The `ValueError` paths for
unbalanced IPv6 brackets and NFKC-unstable netlocs are not modelled; the
theorems below are only about URLs the parser accepts. -/
def urlsplitModel (url0 : Str) (dflt : Str) : SplitResult :=
  let url1 := urlClean url0
  let (scheme, url2) := splitScheme url1 dflt
  let (netloc, url3) := splitNetloc url2
  let (url4, fragment) := splitFragment url3
  let (path, query) := splitQuery url4
  ⟨scheme, netloc, path, query, fragment⟩

/-- `urllib.parse.uses_params`. -/
def usesParams : List Str :=
  [pys "", pys "ftp", pys "hdl", pys "prospero", pys "http", pys "imap",
   pys "https", pys "shttp", pys "rtsp", pys "rtspu", pys "sip",
   pys "sips", pys "mms", pys "sftp", pys "tel"]

/-- `urllib.parse.uses_relative`. -/
def usesRelative : List Str :=
  [pys "", pys "ftp", pys "http", pys "gopher", pys "nntp", pys "imap",
   pys "wais", pys "file", pys "https", pys "shttp", pys "mms",
   pys "prospero", pys "rtsp", pys "rtspu", pys "sftp", pys "svn",
   pys "svn+ssh", pys "ws", pys "wss"]

/-- `urllib.parse.uses_netloc`. -/
def usesNetloc : List Str :=
  [pys "", pys "ftp", pys "http", pys "gopher", pys "nntp", pys "telnet",
   pys "imap", pys "wais", pys "file", pys "mms", pys "https", pys "shttp",
   pys "snews", pys "prospero", pys "rtsp", pys "rtspu", pys "rsync",
   pys "svn", pys "svn+ssh", pys "sftp", pys "nfs", pys "git",
   pys "git+ssh", pys "ws", pys "wss", pys "itms-services"]

/-- Split `url` at its last `'/'`: `some (before, after)` with
`url = before ++ '/' :: after` and no `'/'` in `after`; `none` if `url`
has no slash. -/
def splitAtLastSlash (l : Str) : Option (Str × Str) :=
  match splitFirstOn '/' l.reverse with
  | (_, none) => none
  | (revAfter, some revBefore) => some (revBefore.reverse, revAfter.reverse)

/-- `urllib.parse._splitparams`: split `;params` off the last path
segment (off the whole path if it contains no `'/'`). -/
def splitparamsModel (url : Str) : Str × Str :=
  match splitAtLastSlash url with
  | some (before, last) =>
    match splitFirstOn ';' last with
    | (seg, some ps) => (before ++ '/' :: seg, ps)
    | (_, none) => (url, [])
  | none =>
    match splitFirstOn ';' url with
    | (seg, some ps) => (seg, ps)
    | (_, none) => (url, [])

/-- Result of `urllib.parse.urlparse` (path params split out). -/
structure ParseResult where
  scheme : Str
  netloc : Str
  path : Str
  params : Str
  query : Str
  fragment : Str
deriving Repr, DecidableEq

/-- `urllib.parse.urlparse(url, scheme=dflt)`. -/
def urlparseModel (url : Str) (dflt : Str) : ParseResult :=
  if (urlsplitModel url dflt).scheme ∈ usesParams ∧
      ';' ∈ (urlsplitModel url dflt).path then
    ⟨(urlsplitModel url dflt).scheme, (urlsplitModel url dflt).netloc,
     (splitparamsModel (urlsplitModel url dflt).path).1,
     (splitparamsModel (urlsplitModel url dflt).path).2,
     (urlsplitModel url dflt).query, (urlsplitModel url dflt).fragment⟩
  else
    ⟨(urlsplitModel url dflt).scheme, (urlsplitModel url dflt).netloc,
     (urlsplitModel url dflt).path, [],
     (urlsplitModel url dflt).query, (urlsplitModel url dflt).fragment⟩

/-- `urllib.parse.urlunsplit`. -/
def urlunsplitModel (scheme netloc url query fragment : Str) : Str :=
  let url1 :=
    if netloc ≠ [] ∨ (url ≠ [] ∧ (pys "//").isPrefixOf url = true) then
      let url' := if url ≠ [] ∧ ¬ ((pys "/").isPrefixOf url = true)
        then '/' :: url else url
      pys "//" ++ netloc ++ url'
    else url
  let url2 := if scheme ≠ [] then scheme ++ ':' :: url1 else url1
  let url3 := if query ≠ [] then url2 ++ '?' :: query else url2
  if fragment ≠ [] then url3 ++ '#' :: fragment else url3

/-- `urllib.parse.urlunparse`. -/
def urlunparseModel (r : ParseResult) : Str :=
  let url := if r.params ≠ [] then r.path ++ ';' :: r.params else r.path
  urlunsplitModel r.scheme r.netloc url r.query r.fragment

/-- The `..` / `.` resolution loop inside `urljoin`. -/
def resolveSegs (segs : List Str) : List Str :=
  segs.foldl (fun acc seg =>
    if seg = pys ".." then acc.dropLast
    else if seg = pys "." then acc
    else acc ++ [seg]) []

/-- `segments[1:-1] = filter(None, segments[1:-1])` from `urljoin`. -/
def filterMiddle (segs : List Str) : List Str :=
  match segs with
  | [] => []
  | [s] => [s]
  | s :: rest =>
    s :: (rest.dropLast.filter (fun x => x ≠ [])) ++ [rest.getLastD []]

/-- `urllib.parse.urljoin(base, url)`. -/
def urljoinModel (base url : Str) : Str :=
  if base = [] then url
  else if url = [] then base
  else
    let b := urlparseModel base []
    let u := urlparseModel url b.scheme
    if u.scheme ≠ b.scheme ∨ u.scheme ∉ usesRelative then url
    else
      let netloc0 := if u.scheme ∈ usesNetloc then
          (if u.netloc ≠ [] then none else some b.netloc) else some u.netloc
      match netloc0 with
      | none => urlunparseModel u
      | some netloc =>
        if u.path = [] ∧ u.params = [] then
          let query := if u.query = [] then b.query else u.query
          urlunparseModel ⟨u.scheme, netloc, b.path, b.params, query, u.fragment⟩
        else
          let baseParts0 := pySplitChar '/' b.path
          let baseParts := if baseParts0.getLastD [] ≠ []
            then baseParts0.dropLast else baseParts0
          let segments :=
            if pys "/" |>.isPrefixOf u.path then pySplitChar '/' u.path
            else filterMiddle (baseParts ++ pySplitChar '/' u.path)
          let resolved := resolveSegs segments
          let resolved := if segments.getLastD [] = pys ".." ∨
              segments.getLastD [] = pys "." then resolved ++ [[]] else resolved
          let joined := pyJoinChar '/' resolved
          let path := if joined = [] then pys "/" else joined
          urlunparseModel ⟨u.scheme, netloc, path, u.params, u.query, u.fragment⟩

/-- `normalize_url` from `src/fetch/main.py`: parse, drop the fragment,
reassemble `scheme://netloc + path`, strip all trailing slashes, then
re-attach a non-empty query. -/
def normalizeUrl (url : Str) : Str :=
  let p := urlparseModel url []
  let normalized := p.scheme ++ pys "://" ++ p.netloc ++ p.path
  let normalized := rstripSlash normalized
  if p.query ≠ [] then normalized ++ '?' :: p.query else normalized

/- ### DOM model (BeautifulSoup capability) -/

mutual
/-- A parsed HTML node: a text node or an element with tag, attributes
and children. -/
inductive HNode where
  | text (s : Str)
  | elem (tag : Str) (attrs : List (Str × Str)) (children : HForest)
/-- A sequence of sibling nodes; a whole parsed document is an `HForest`
(BeautifulSoup's soup object holds its top-level nodes the same way). -/
inductive HForest where
  | nil
  | cons (n : HNode) (rest : HForest)
end

/-- Tag name of a node (text nodes have none). -/
def nodeTag : HNode → Str
  | .text _ => []
  | .elem t _ _ => t

/-- Attribute lookup (`tag.get(name)` / `tag[name]`). -/
def nodeAttr : HNode → Str → Option Str
  | .text _, _ => none
  | .elem _ attrs _, name => (attrs.find? (fun a => a.1 = name)).map (·.2)

/-- `tag.name == t` as a Bool predicate. -/
def isTagB (t : Str) (n : HNode) : Bool := nodeTag n == t

/-- The multi-valued `class` attribute as BeautifulSoup stores it:
whitespace-split into individual class names (empty if absent). -/
def nodeClasses (n : HNode) : List Str :=
  match nodeAttr n (pys "class") with
  | none => []
  | some v => pySplitWS v

/-- Matching a string filter against the `class` attribute: BeautifulSoup
accepts a match on any single class or on the space-joined whole. -/
def hasClassStr (n : HNode) (c : Str) : Bool :=
  match nodeAttr n (pys "class") with
  | none => false
  | some v =>
    let cl := pySplitWS v
    cl.contains c || pyJoinChar ' ' cl == c

/-- Matching a list filter (`{'class': [...]}`) against `class`. -/
def hasClassIn (n : HNode) (cs : List Str) : Bool :=
  match nodeAttr n (pys "class") with
  | none => false
  | some v =>
    let cl := pySplitWS v
    cl.any (fun c => cs.contains c) || cs.contains (pyJoinChar ' ' cl)

/-- The callable class filter from `extract_main_content`:
`lambda c: c and ('sidebar' in c or 'menu' in c or 'nav' in c)`, applied
by BeautifulSoup to each class and to the space-joined whole. -/
def sidebarMenuNavClass (n : HNode) : Bool :=
  match nodeAttr n (pys "class") with
  | none => false
  | some v =>
    let g : Str → Bool := fun c =>
      c ≠ [] && (strContains c (pys "sidebar") || strContains c (pys "menu")
        || strContains c (pys "nav"))
    let cl := pySplitWS v
    cl.any g || g (pyJoinChar ' ' cl)

mutual
/-- Visible text of a node (`tag.text`): concatenation of all descendant
text nodes in document order. -/
def textOfN : HNode → Str
  | .text s => s
  | .elem _ _ cs => textOfF cs
/-- Visible text of a forest. -/
def textOfF : HForest → Str
  | .nil => []
  | .cons n rest => textOfN n ++ textOfF rest
end

mutual
/-- All nodes of a subtree in document (pre-)order, each paired with its
ancestor chain (nearest first) — the traversal underlying `find` /
`find_all` / `find_parent`. -/
def allNodesAncN (anc : List HNode) : HNode → List (HNode × List HNode)
  | .text s => [(.text s, anc)]
  | .elem t a cs =>
    (.elem t a cs, anc) :: allNodesAncF (.elem t a cs :: anc) cs
/-- All nodes of a forest in document order with ancestor chains. -/
def allNodesAncF (anc : List HNode) : HForest → List (HNode × List HNode)
  | .nil => []
  | .cons n rest => allNodesAncN anc n ++ allNodesAncF anc rest
end

/-- `soup.find_all(pred)` over a whole document. -/
def findAllF (p : HNode → Bool) (f : HForest) : List HNode :=
  ((allNodesAncF [] f).filter (fun x => p x.1)).map (·.1)

/-- `soup.find(pred)`: first match in document order. -/
def findFirstF (p : HNode → Bool) (f : HForest) : Option HNode :=
  (findAllF p f).head?

/-- `tag.find_all(pred)`: matches among the descendants of a node
(excluding the node itself). -/
def findAllInNode (p : HNode → Bool) (n : HNode) : List HNode :=
  match n with
  | .text _ => []
  | .elem _ _ cs => findAllF p cs

mutual
/-- Remove every node satisfying `p` (with its whole subtree) — the
effect of `for x in find_all(...): x.decompose()`. -/
def removeAllN (p : HNode → Bool) : HNode → HNode
  | .text s => .text s
  | .elem t a cs => .elem t a (removeAllF p cs)
/-- Forest version of `removeAllN`. -/
def removeAllF (p : HNode → Bool) : HForest → HForest
  | .nil => .nil
  | .cons n rest =>
    if p n then removeAllF p rest
    else .cons (removeAllN p n) (removeAllF p rest)
end

/-- Decompose matching descendants of a node, keeping the node. -/
def removeInside (p : HNode → Bool) (n : HNode) : HNode :=
  match n with
  | .text s => .text s
  | .elem t a cs => .elem t a (removeAllF p cs)

/-- HTML text escaping used by BeautifulSoup's default serializer. -/
def escChar (c : Char) : Str :=
  if c = '&' then pys "&amp;"
  else if c = '<' then pys "&lt;"
  else if c = '>' then pys "&gt;"
  else [c]

/-- Escape a text node for serialization. -/
def escText (s : Str) : Str := s.foldr (fun c acc => escChar c ++ acc) []

/-- Escape an attribute value (inside double quotes). -/
def escAttr (s : Str) : Str :=
  s.foldr (fun c acc =>
    (if c = '&' then pys "&amp;"
     else if c = '"' then pys "&quot;" else [c]) ++ acc) []

/-- Serialize an attribute list as ` k="v" ...`. -/
def serializeAttrs (attrs : List (Str × Str)) : Str :=
  attrs.foldr (fun a acc => ' ' :: a.1 ++ '=' :: '"' :: escAttr a.2 ++ '"' :: acc) []

/-- HTML void elements, rendered self-closing by BeautifulSoup. -/
def voidTags : List Str :=
  [pys "area", pys "base", pys "br", pys "col", pys "embed", pys "hr",
   pys "img", pys "input", pys "link", pys "meta", pys "param",
   pys "source", pys "track", pys "wbr"]

mutual
/-- `str(tag)`: serialize a node back to markup. -/
def serializeN : HNode → Str
  | .text s => escText s
  | .elem t a cs =>
    if voidTags.contains t then
      '<' :: t ++ serializeAttrs a ++ pys "/>"
    else
      '<' :: t ++ serializeAttrs a ++ '>' :: serializeF cs ++ '<' :: '/' :: t ++ pys ">"
/-- `str(soup)`: serialize a forest back to markup. -/
def serializeF : HForest → Str
  | .nil => []
  | .cons n rest => serializeN n ++ serializeF rest
end

/- ### Webdoc extractor strategy (`src/fetch/extractors/webdoc.py`) -/

/-- `is_webdoc_generated`: footer-attribution heuristic for the Webdoc
generator. -/
def isWebdocGenerated (soup : HForest) : Bool :=
  let webdocLinks := (allNodesAncF [] soup).filter (fun x =>
    nodeTag x.1 == pys "a" &&
    (match nodeAttr x.1 (pys "href") with
     | some h => h ≠ [] && strContains h (pys "webdoc-js/webdoc")
     | none => false))
  let branch1 := webdocLinks.any (fun x =>
    strContains (textOfN x.1) (pys "Webdoc") &&
    (match x.2.find? (fun a => nodeTag a == pys "div") with
     | some d => strContains (textOfN d) (pys "Documentation generated by")
     | none => false))
  if branch1 then true
  else
    match findFirstF (fun n => nodeTag n == pys "footer" &&
        hasClassStr n (pys "content-size")) soup with
    | some f =>
      strContains (textOfN f) (pys "Webdoc") &&
      strContains (textOfN f) (pys "Documentation generated by")
    | none => false

/-- The per-link filter of `extract_navigation_links`:
`href and not href.startswith('#') and not href.startswith('javascript:')`. -/
def hrefOk (h : Str) : Bool :=
  !h.isEmpty && !(pyStartsWith h (pys "#")) && !(pyStartsWith h (pys "javascript:"))

/-- Collect accepted `href`s of all anchor descendants of a container. -/
def collectHrefs (n : HNode) : List Str :=
  ((findAllInNode (fun m => nodeTag m == pys "a" && (nodeAttr m (pys "href")).isSome) n).filterMap
    (fun m => nodeAttr m (pys "href"))).filter hrefOk

/-- The pre-dedup link list of `extract_navigation_links` (its `links`
variable after both collection branches). -/
def rawNavLinks (soup : HForest) : List Str :=
  let navigation :=
    match findFirstF (isTagB (pys "nav")) soup with
    | some n => some n
    | none => findFirstF (fun n => isTagB (pys "div") n &&
        hasClassStr n (pys "navigation")) soup
  let links :=
    match navigation with
    | some nav => collectHrefs nav
    | none => []
  if links = [] then
    match findFirstF (fun n => isTagB (pys "div") n &&
        hasClassIn n [pys "sidebar", pys "menu", pys "side-nav"]) soup with
    | some sb => collectHrefs sb
    | none => []
  else links

/-- The order-preserving dedup loop at the end of
`extract_navigation_links` (`seen` set plus `unique_links` list). -/
def dedupFirstAux (seen : List Str) : List Str → List Str
  | [] => []
  | x :: xs =>
    if x ∈ seen then dedupFirstAux seen xs
    else x :: dedupFirstAux (x :: seen) xs

/-- Order-preserving deduplication, first occurrence kept. -/
def dedupFirst (l : List Str) : List Str := dedupFirstAux [] l

/-- Index of the first occurrence of `a` in `l` (length of `l` if absent);
used to state that deduplication preserves first-seen order. -/
def firstIdx (a : Str) : List Str → Nat
  | [] => 0
  | x :: xs => if x = a then 0 else firstIdx a xs + 1

/-- `extract_navigation_links`. -/
def extractNavigationLinks (soup : HForest) : List Str :=
  dedupFirst (rawNavLinks soup)

/-- `extract_main_content`. -/
def extractMainContent (soup : HForest) : Str :=
  let mainContent := findFirstF (fun n => isTagB (pys "div") n &&
    hasClassIn n [pys "main"]) soup
  let mainContent :=
    match mainContent with
    | some mc => some mc
    | none =>
      match findFirstF (isTagB (pys "body")) soup with
      | some body =>
        let b1 := removeInside (fun n => nodeTag n == pys "header" ||
          nodeTag n == pys "footer" || nodeTag n == pys "nav") body
        some (removeInside sidebarMenuNavClass b1)
      | none => none
  match mainContent with
  | some mc =>
    let mc := removeInside (isTagB (pys "script")) mc
    let mc := removeInside (isTagB (pys "style")) mc
    let mc := removeInside (isTagB (pys "footer")) mc
    pyStrip (serializeN mc)
  | none => pyStrip (serializeF soup)

/- ### Extractor registry (`src/fetch/extractors/__init__.py`) -/

/-- One registry entry: detector plus the two paired extractors. -/
structure ExtractorEntry where
  detector : HForest → Bool
  contentExtractor : HForest → Str
  linkExtractor : HForest → List Str

/-- The `webdoc` strategy triple. -/
def webdocEntry : ExtractorEntry :=
  ⟨isWebdocGenerated, extractMainContent, extractNavigationLinks⟩

/-- The `EXTRACTORS` registry (insertion order preserved, as for a
Python dict). -/
def EXTRACTORS : List (Str × ExtractorEntry) := [(pys "webdoc", webdocEntry)]

/-- `detect_doc_type`: first registered detector that fires. -/
def detectDocType (soup : HForest) : Option Str :=
  (EXTRACTORS.find? (fun e => e.2.detector soup)).map (·.1)

/-- Registry lookup by name. -/
def lookupExtractor (name : Str) : Option ExtractorEntry :=
  (EXTRACTORS.find? (fun e => e.1 == name)).map (·.2)

/-- `get_extractors`: the detected strategy's pair, else the webdoc
content extractor with the `doc_type or "webdoc"` link extractor.  (The
`KeyError` path for a detected-but-unregistered name cannot occur, since
`detect_doc_type` only returns registry keys; the defaults used below sit
on that unreachable branch.) -/
def getExtractors (soup : HForest) : (HForest → Str) × (HForest → List Str) :=
  match detectDocType soup with
  | some t =>
    match lookupExtractor t with
    | some e => (e.contentExtractor, e.linkExtractor)
    | none =>
      (webdocEntry.contentExtractor,
       ((lookupExtractor (pys "webdoc")).getD webdocEntry).linkExtractor)
  | none =>
    (webdocEntry.contentExtractor,
     ((lookupExtractor (pys "webdoc")).getD webdocEntry).linkExtractor)

/- ### Crawl orchestrator (`src/fetch/main.py`) -/

/-- The external collaborators of one crawl run: the HTTP fetch capability
(`requests.get` + `BeautifulSoup` parse; `none` models a transport error
or non-2xx status, i.e. `requests.exceptions.RequestException`) and the
MarkItDown conversion capability (`none` models a raised conversion
error). -/
structure World where
  fetch : Str → Option HForest
  convert : Str → Option Str

/-- The invocation surface: the `--url` and `--max-pages` arguments
(`none` when the max-pages flag is absent). -/
structure Config where
  url : Str
  maxPages : Option Int

/-- `"<html><body>" + html_content + "</body></html>"` from `scrape_page`. -/
def wrapHtml (frag : Str) : Str :=
  pys "<html><body>" ++ frag ++ pys "</body></html>"

/-- The conversion step of `scrape_page`: convert the wrapped fragment;
on success apply the two literal escapes, on failure fall back to the
wrapped markup itself. -/
def convertStep (w : World) (frag : Str) : Str :=
  let wrapped := wrapHtml frag
  match w.convert wrapped with
  | some md => pyReplace (pyReplace md (pys "<S>") (pys "\\<S>")) (pys "<s>") (pys "\\<s>")
  | none => wrapped

/-- The dict `scrape_page` returns. -/
structure PageResult where
  url : Str
  content : Str
  title : Option Str
deriving DecidableEq

/-- Resolution of a possibly-relative URL against the base at the top of
`scrape_page` (`base_url` is falsy for the seed call). -/
def scrapeFullUrl (base : Option Str) (url : Str) : Str :=
  match base with
  | some b => if b ≠ [] ∧ ¬ isHttpAbs url then urljoinModel b url else url
  | none => url

/-- `scrape_page(url, base_url, content_extractor)`.  Returns the fetch
events it performs and `none` when `fetch_url` hit an error — in the
source that error path calls `sys.exit(1)`, terminating the process. -/
def scrapePage (w : World) (url : Str) (base : Option Str)
    (ce : Option (HForest → Str)) : List Str × Option PageResult :=
  let fullUrl := scrapeFullUrl base url
  match w.fetch fullUrl with
  | none => ([fullUrl], none)
  | some soup =>
    let title := (findFirstF (isTagB (pys "title")) soup).map textOfN
    let extractor := match ce with
      | some f => f
      | none => (getExtractors soup).1
    let content := convertStep w (extractor soup)
    ([fullUrl], some ⟨fullUrl, content, title⟩)

/-- Absolutisation of one discovered link during frontier construction
(`urljoin(initial_url, link)` unless already `http(s)://`-absolute). -/
def absolutizeLink (base link : Str) : Str :=
  if ¬ isHttpAbs link then urljoinModel base link else link

/-- Frontier construction from the seed's raw links: absolutise, then
keep a link iff its normalized form is not in `scraped_urls`, which at
this point holds exactly the normalized seed URL.  (The set is not
extended inside this loop, so links duplicating each other all pass.) -/
def buildFrontier (initialUrl : Str) (rawLinks : List Str) : List Str :=
  (rawLinks.map (absolutizeLink initialUrl)).filter
    (fun fl => normalizeUrl fl ≠ initialUrl)

/-- Per-frontier-entry outcome of the drain loop. -/
inductive StepOutcome where
  | skipped
  | fetched
deriving DecidableEq, Repr

/-- Observable trace of a run (or of the drain loop): fetch events in
order, artifact appends in order, per-entry outcomes, and whether the
process was terminated by `sys.exit(1)` from `fetch_url`. -/
structure RunTrace where
  fetches : List Str
  writes : List Str
  outcomes : List StepOutcome
  aborted : Bool
deriving DecidableEq, Repr

/-- The seed artifact entry (the first `content = f"""----..."""` block). -/
def seedEntry (ts extractorType url content : Str) : Str :=
  pys "----\n\nCreated: " ++ ts ++ pys "\nExtractor: " ++ extractorType ++
  pys "\n\n----\n\n" ++ url ++ pys "\n\n----\n\n" ++ content ++ pys "\n\n----\n"

/-- A per-page artifact entry (the `page_content = f"""..."""` block). -/
def pageEntry (url content : Str) : Str :=
  '\n' :: url ++ pys "\n\n----\n\n" ++ content ++ pys "\n\n----\n"

/-- The drain loop over `links[:max_pages]`: skip an entry whose
normalized form is already in `scraped_urls`, otherwise mark it scraped
and run `scrape_page`; a fetch error there exits the process
(`SystemExit` is not an `Exception`, so the loop's `except` clause does
not catch it and no later entry runs). -/
def drain (w : World) (ce : HForest → Str) (initialUrl : Str) :
    List Str → List Str → RunTrace
  | _, [] => ⟨[], [], [], false⟩
  | scraped, link :: rest =>
    let nl := normalizeUrl link
    if nl ∈ scraped then
      let r := drain w ce initialUrl scraped rest
      ⟨r.fetches, r.writes, .skipped :: r.outcomes, r.aborted⟩
    else
      match scrapePage w link (some initialUrl) (some ce) with
      | (fs, none) => ⟨fs, [], [], true⟩
      | (fs, some page) =>
        let r := drain w ce initialUrl (nl :: scraped) rest
        ⟨fs ++ r.fetches, pageEntry page.url page.content :: r.writes,
         .fetched :: r.outcomes, r.aborted⟩

/-- `normalize_url(args.url)`, the seed of the visited set. -/
def initialUrlOf (cfg : Config) : Str := normalizeUrl cfg.url

/-- The parsed seed page, if its fetch succeeds. -/
def seedSoup (cfg : Config) (w : World) : Option HForest :=
  w.fetch (initialUrlOf cfg)

/-- The frontier of the run (empty if the seed fetch fails). -/
def runFrontier (cfg : Config) (w : World) : List Str :=
  match seedSoup cfg w with
  | some soup => buildFrontier (initialUrlOf cfg) ((getExtractors soup).2 soup)
  | none => []

/-- `max_pages = args.max_pages if args.max_pages else len(links)`
(Python truthiness: absent and `0` both fall back to the frontier size). -/
def effectiveMax (cfg : Config) (frontierLen : Nat) : Int :=
  match cfg.maxPages with
  | some m => if m ≠ 0 then m else (frontierLen : Int)
  | none => (frontierLen : Int)

/-- The slice `links[:max_pages]` the drain loop iterates over. -/
def runSlice (cfg : Config) (w : World) : List Str :=
  pySliceTo (runFrontier cfg w) (effectiveMax cfg (runFrontier cfg w).length)

/-- `main()`: seed fetch (fatal on failure), format detection, frontier
construction, seed scrape + first artifact write, then the drain loop.
`ts` stands in for `datetime.now()`. -/
def runMain (cfg : Config) (ts : Str) (w : World) : RunTrace :=
  let iu := initialUrlOf cfg
  match w.fetch iu with
  | none => ⟨[iu], [], [], true⟩
  | some soup =>
    let extractorType := (detectDocType soup).getD (pys "generic")
    let ce := (getExtractors soup).1
    let links := buildFrontier iu ((getExtractors soup).2 soup)
    match scrapePage w iu none (some ce) with
    | (fs2, none) => ⟨iu :: fs2, [], [], true⟩
    | (fs2, some page) =>
      let entry0 := seedEntry ts extractorType page.url page.content
      let d := drain w ce iu [iu]
        (pySliceTo links (effectiveMax cfg links.length))
      ⟨iu :: fs2 ++ d.fetches, entry0 :: d.writes, d.outcomes, d.aborted⟩

/- ### Concrete pages, worlds and configurations used as test inputs -/

/-- A page whose navigation element carries the given links. -/
def navSoup (links : List Str) : HForest :=
  .cons (.elem (pys "nav") []
    (links.foldr (fun l acc => .cons (.elem (pys "a") [(pys "href", l)] .nil) acc) .nil)) .nil

/-- A trivial content page. -/
def textSoup (s : String) : HForest := .cons (.text (pys s)) .nil

/-- C1 scenario: seed with two frontier links; fetching the first link
hits a transport error, the second would succeed. -/
def worldC1 : World :=
  { fetch := fun u =>
      if u = pys "http://e1" then some (navSoup [pys "http://e1/p1", pys "http://e1/p2"])
      else if u = pys "http://e1/p2" then some (textSoup "two")
      else none,
    convert := fun _ => none }

def cfgC1 : Config := ⟨pys "http://e1", none⟩

/-- C2 counterexample scenario: a single-page site with no links. -/
def worldC2cex : World :=
  { fetch := fun u =>
      if u = pys "http://e2" then some (textSoup "lone") else none,
    convert := fun _ => none }

def cfgC2cex : Config := ⟨pys "http://e2", none⟩

/-- C2 witness scenario: 5 discovered links, 2 of which normalize to the
seed URL. -/
def worldC2wit : World :=
  { fetch := fun u =>
      if u = pys "http://e2w" then some (navSoup
        [pys "http://e2w/a", pys "http://e2w/", pys "http://e2w/b",
         pys "http://e2w#x", pys "http://e2w/c"])
      else if u = pys "http://e2w/a" then some (textSoup "a")
      else if u = pys "http://e2w/b" then some (textSoup "b")
      else if u = pys "http://e2w/c" then some (textSoup "c")
      else none,
    convert := fun _ => none }

def cfgC2wit : Config := ⟨pys "http://e2w", none⟩

/-- C4 witness world: converter always raises. -/
def worldC4 : World :=
  { fetch := fun u => if u = pys "http://e4" then some (textSoup "t") else none,
    convert := fun _ => none }

/-- C6 scenario: seed with 10 unseen frontier links, max-page cap 2. -/
def worldC6 : World :=
  { fetch := fun u =>
      if u = pys "http://e6" then some (navSoup
        [pys "http://e6/1", pys "http://e6/2", pys "http://e6/3",
         pys "http://e6/4", pys "http://e6/5", pys "http://e6/6",
         pys "http://e6/7", pys "http://e6/8", pys "http://e6/9",
         pys "http://e6/10"])
      else if pyStartsWith u (pys "http://e6/") then some (textSoup "p")
      else none,
    convert := fun _ => none }

def cfgC6 : Config := ⟨pys "http://e6", some 2⟩

/-- C10 scenario: two distinct raw links with the same normalized form
followed by a third link, with a cap of 2 — the duplicate consumes the
second and last cap slot. -/
def worldC10 : World :=
  { fetch := fun u =>
      if u = pys "http://ten" then some (navSoup
        [pys "http://ten/a/", pys "http://ten/a", pys "http://ten/b"])
      else if u = pys "http://ten/a/" then some (textSoup "a")
      else if u = pys "http://ten/a" then some (textSoup "a")
      else if u = pys "http://ten/b" then some (textSoup "b")
      else none,
    convert := fun _ => none }

def cfgC10 : Config := ⟨pys "http://ten", some 2⟩

/-- C5 counterexample: the footer's visible text contains
"Documentation generated by Webdoc" but the footer has no class marker. -/
def soupC5cex : HForest :=
  .cons (.elem (pys "footer") []
    (.cons (.text (pys "Documentation generated by Webdoc")) .nil)) .nil

/-- C5 witness: same footer text, with the `content-size` class marker. -/
def soupC5wit : HForest :=
  .cons (.elem (pys "footer") [(pys "class", pys "content-size")]
    (.cons (.text (pys "Documentation generated by Webdoc")) .nil)) .nil

/-- C7 witness: a page with no nav element and no navigation, sidebar or
menu container at all. -/
def soupC7wit : HForest :=
  .cons (.elem (pys "p") [] (.cons (.text (pys "hello")) .nil)) .nil

/-- C8 counterexample: a document (no `div.main`, no body) whose
serialization has surrounding whitespace. -/
def soupC8cex : HForest := .cons (.text (pys " x ")) .nil

/-- C8 witness: a document with no `div.main` and no body. -/
def soupC8wit : HForest := .cons (.text (pys "hi")) .nil

/- ### Helper lemmas -/

theorem strContains_infix_iff {h n : Str} : strContains h n = true ↔ n <:+: h := by
  constructor
  · intro hc
    rcases List.any_eq_true.mp hc with ⟨t, ht, hp⟩
    exact List.infix_iff_prefix_suffix.mpr
      ⟨t, List.isPrefixOf_iff_prefix.mp hp, (List.mem_tails _ _).mp ht⟩
  · intro hi
    rcases List.infix_iff_prefix_suffix.mp hi with ⟨t, hp, hs⟩
    exact List.any_eq_true.mpr ⟨t, (List.mem_tails _ _).mpr hs,
      List.isPrefixOf_iff_prefix.mpr hp⟩

theorem strContains_mono {h n m : Str} (hc : strContains h n = true)
    (hm : m <:+: n) : strContains h m = true :=
  strContains_infix_iff.mpr (hm.trans (strContains_infix_iff.mp hc))

/- ### C4 — conversion step never raises past its boundary -/

/-- C4: for every extracted fragment, if the converter raises, the page
content is exactly the wrapped markup `"<html><body>" + fragment +
"</body></html>"`; if it succeeds, the content is the converter output
with the two literal substitutions applied. -/
theorem conversion_boundary (w : World) (url : Str) (base : Option Str)
    (ce : HForest → Str) (dom : HForest)
    (hf : w.fetch (scrapeFullUrl base url) = some dom) :
    (w.convert (wrapHtml (ce dom)) = none →
      ((scrapePage w url base (some ce)).2.map (fun p => p.content)) =
        some (pys "<html><body>" ++ ce dom ++ pys "</body></html>")) ∧
    (∀ md, w.convert (wrapHtml (ce dom)) = some md →
      ((scrapePage w url base (some ce)).2.map (fun p => p.content)) =
        some (pyReplace (pyReplace md (pys "<S>") (pys "\\<S>"))
          (pys "<s>") (pys "\\<s>"))) := by
  constructor
  · intro hc
    simp only [wrapHtml, List.append_assoc] at hc
    simp [scrapePage, hf, convertStep, hc, wrapHtml]
  · intro md hc
    simp only [wrapHtml, List.append_assoc] at hc
    simp [scrapePage, hf, convertStep, hc, wrapHtml]

/-- Witness for C4 at a concrete world whose converter raises. -/
theorem conversion_boundary_witness :
    (worldC4.convert (wrapHtml ((fun _ => pys "frag") (textSoup "t"))) = none →
      ((scrapePage worldC4 (pys "http://e4") none (some (fun _ => pys "frag"))).2.map
        (fun p => p.content)) =
        some (pys "<html><body>" ++ (fun _ => pys "frag") (textSoup "t") ++
          pys "</body></html>")) ∧
    (∀ md, worldC4.convert (wrapHtml ((fun _ => pys "frag") (textSoup "t"))) = some md →
      ((scrapePage worldC4 (pys "http://e4") none (some (fun _ => pys "frag"))).2.map
        (fun p => p.content)) =
        some (pyReplace (pyReplace md (pys "<S>") (pys "\\<S>"))
          (pys "<s>") (pys "\\<s>"))) :=
  conversion_boundary worldC4 (pys "http://e4") none (fun _ => pys "frag")
    (textSoup "t") rfl

/- ### C5 — Webdoc footer detection -/

/-- C5, counterexample: a seed page whose footer's visible text contains
"Documentation generated by Webdoc" on which the detector returns false
(the footer lacks the `content-size` class marker the code requires), so
no format is detected. -/
theorem webdoc_footer_counterexample :
    ((findFirstF (isTagB (pys "footer")) soupC5cex).map textOfN) =
      some (pys "Documentation generated by Webdoc") ∧
    isWebdocGenerated soupC5cex = false ∧
    detectDocType soupC5cex = none := by decide

/-- C5 as amended: if the first footer carrying the `content-size` class
marker has visible text containing "Documentation generated by Webdoc",
the detector returns true and the detected format id is "webdoc". -/
theorem webdoc_footer_detected (soup : HForest) (f : HNode)
    (hf : findFirstF (fun n => nodeTag n == pys "footer" &&
      hasClassStr n (pys "content-size")) soup = some f)
    (ht : strContains (textOfN f) (pys "Documentation generated by Webdoc") = true) :
    isWebdocGenerated soup = true ∧ detectDocType soup = some (pys "webdoc") := by
  have h1 : strContains (textOfN f) (pys "Webdoc") = true :=
    strContains_mono ht (by decide)
  have h2 : strContains (textOfN f) (pys "Documentation generated by") = true :=
    strContains_mono ht (by decide)
  have hw : isWebdocGenerated soup = true := by
    unfold isWebdocGenerated
    simp only [hf]
    split
    · rfl
    · simp [h1, h2]
  refine ⟨hw, ?_⟩
  simp [detectDocType, EXTRACTORS, webdocEntry, List.find?, hw]

/-- Witness for C5's amended form on a concrete page. -/
theorem webdoc_footer_detected_witness :
    isWebdocGenerated soupC5wit = true ∧
    detectDocType soupC5wit = some (pys "webdoc") :=
  webdoc_footer_detected soupC5wit
    (HNode.elem (pys "footer") [(pys "class", pys "content-size")]
      (.cons (.text (pys "Documentation generated by Webdoc")) .nil))
    rfl (by decide)

/- ### C8 — content extraction fallback -/

/-- C8, counterexample: with no `div.main` and no body, the function
returns the serialized document *stripped of surrounding whitespace*,
not the serialization as-is. -/
theorem extract_content_counterexample :
    (findFirstF (fun n => isTagB (pys "div") n && hasClassIn n [pys "main"])
      soupC8cex).isNone = true ∧
    (findFirstF (isTagB (pys "body")) soupC8cex).isNone = true ∧
    extractMainContent soupC8cex ≠ serializeF soupC8cex ∧
    extractMainContent soupC8cex = pys "x" := by decide

/-- C8 as amended: `extract_main_content` is total by construction, and
when no prioritized container (`div.main`) and no body exist it returns
the entire document serialized, with surrounding whitespace stripped. -/
theorem extract_content_fallback (soup : HForest)
    (h1 : (findFirstF (fun n => isTagB (pys "div") n && hasClassIn n [pys "main"])
      soup).isNone = true)
    (h2 : (findFirstF (isTagB (pys "body")) soup).isNone = true) :
    extractMainContent soup = pyStrip (serializeF soup) := by
  rw [Option.isNone_iff_eq_none] at h1 h2
  unfold extractMainContent
  simp [h1, h2]

/-- Witness for C8's amended form. -/
theorem extract_content_fallback_witness :
    extractMainContent soupC8wit = pyStrip (serializeF soupC8wit) :=
  extract_content_fallback soupC8wit (by decide) (by decide)

/- ### C7 — navigation link extraction -/

theorem dedupFirstAux_mem {l : List Str} :
    ∀ {seen a}, a ∈ dedupFirstAux seen l → a ∈ l ∧ a ∉ seen := by
  induction l with
  | nil => intro seen a h; simp [dedupFirstAux] at h
  | cons x xs ih =>
    intro seen a h
    by_cases hx : x ∈ seen
    · rw [dedupFirstAux, if_pos hx] at h
      have := ih h
      exact ⟨List.mem_cons_of_mem _ this.1, this.2⟩
    · rw [dedupFirstAux, if_neg hx] at h
      rcases List.mem_cons.mp h with h | h
      · subst h
        exact ⟨List.mem_cons_self _ _, hx⟩
      · have := ih h
        refine ⟨List.mem_cons_of_mem _ this.1, ?_⟩
        intro hmem
        exact this.2 (List.mem_cons_of_mem _ hmem)

theorem dedupFirstAux_nodup (l : List Str) : ∀ seen, (dedupFirstAux seen l).Nodup := by
  induction l with
  | nil => intro seen; simp [dedupFirstAux]
  | cons x xs ih =>
    intro seen
    by_cases hx : x ∈ seen
    · rw [dedupFirstAux, if_pos hx]; exact ih seen
    · rw [dedupFirstAux, if_neg hx]
      refine List.nodup_cons.mpr ⟨?_, ih _⟩
      intro hmem
      exact (dedupFirstAux_mem hmem).2 (List.mem_cons_self _ _)

theorem dedupFirstAux_sublist (l : List Str) :
    ∀ seen, List.Sublist (dedupFirstAux seen l) l := by
  induction l with
  | nil => intro seen; simp [dedupFirstAux]
  | cons x xs ih =>
    intro seen
    by_cases hx : x ∈ seen
    · rw [dedupFirstAux, if_pos hx]; exact (ih seen).cons x
    · rw [dedupFirstAux, if_neg hx]; exact (ih (x :: seen)).cons₂ x

theorem firstIdx_cons_self (a : Str) (l : List Str) : firstIdx a (a :: l) = 0 := by
  simp [firstIdx]

theorem firstIdx_cons_ne {a x : Str} (l : List Str) (h : x ≠ a) :
    firstIdx a (x :: l) = firstIdx a l + 1 := by
  simp [firstIdx, h]

theorem dedupFirstAux_pairwise (l : List Str) :
    ∀ seen, List.Pairwise (fun a b => firstIdx a l < firstIdx b l)
      (dedupFirstAux seen l) := by
  induction l with
  | nil => intro seen; simp [dedupFirstAux]
  | cons x xs ih =>
    intro seen
    by_cases hx : x ∈ seen
    · rw [dedupFirstAux, if_pos hx]
      refine (ih seen).imp_of_mem ?_
      intro a b ha hb hab
      have hax : x ≠ a := fun h => (dedupFirstAux_mem ha).2 (h ▸ hx)
      have hbx : x ≠ b := fun h => (dedupFirstAux_mem hb).2 (h ▸ hx)
      rw [firstIdx_cons_ne _ hax, firstIdx_cons_ne _ hbx]
      omega
    · rw [dedupFirstAux, if_neg hx]
      refine List.pairwise_cons.mpr ⟨?_, ?_⟩
      · intro b hb
        have hbx : x ≠ b := fun h =>
          (dedupFirstAux_mem hb).2 (h ▸ List.mem_cons_self _ _)
        rw [firstIdx_cons_self, firstIdx_cons_ne _ hbx]
        omega
      · refine (ih (x :: seen)).imp_of_mem ?_
        intro a b ha hb hab
        have hax : x ≠ a := fun h =>
          (dedupFirstAux_mem ha).2 (h ▸ List.mem_cons_self _ _)
        have hbx : x ≠ b := fun h =>
          (dedupFirstAux_mem hb).2 (h ▸ List.mem_cons_self _ _)
        rw [firstIdx_cons_ne _ hax, firstIdx_cons_ne _ hbx]
        omega

theorem collectHrefs_hrefOk (n : HNode) : ∀ h ∈ collectHrefs n, hrefOk h = true := by
  intro h hmem
  exact (List.mem_filter.mp hmem).2

theorem rawNavLinks_cases (soup : HForest) :
    rawNavLinks soup = [] ∨ ∃ n, rawNavLinks soup = collectHrefs n := by
  unfold rawNavLinks
  rcases hnav : findFirstF (isTagB (pys "nav")) soup with _ | n
  · rcases hdiv : findFirstF (fun n => isTagB (pys "div") n &&
        hasClassStr n (pys "navigation")) soup with _ | d
    · simp only [hnav, hdiv]
      rcases hsb : findFirstF (fun n => isTagB (pys "div") n &&
          hasClassIn n [pys "sidebar", pys "menu", pys "side-nav"]) soup with _ | s
      · simp only [if_pos rfl]
        exact Or.inl rfl
      · simp only [if_pos rfl]
        exact Or.inr ⟨s, rfl⟩
    · simp only [hnav, hdiv]
      by_cases hl : collectHrefs d = []
      · rw [if_pos hl]
        rcases hsb : findFirstF (fun n => isTagB (pys "div") n &&
            hasClassIn n [pys "sidebar", pys "menu", pys "side-nav"]) soup with _ | s
        · exact Or.inl rfl
        · exact Or.inr ⟨s, rfl⟩
      · rw [if_neg hl]
        exact Or.inr ⟨d, rfl⟩
  · simp only [hnav]
    by_cases hl : collectHrefs n = []
    · rw [if_pos hl]
      rcases hsb : findFirstF (fun n => isTagB (pys "div") n &&
          hasClassIn n [pys "sidebar", pys "menu", pys "side-nav"]) soup with _ | s
      · exact Or.inl rfl
      · exact Or.inr ⟨s, rfl⟩
    · rw [if_neg hl]
      exact Or.inr ⟨n, rfl⟩

theorem rawNavLinks_hrefOk (soup : HForest) :
    ∀ h ∈ rawNavLinks soup, hrefOk h = true := by
  rcases rawNavLinks_cases soup with h | ⟨n, h⟩
  · rw [h]; intro x hx; exact absurd hx (List.not_mem_nil x)
  · rw [h]; exact collectHrefs_hrefOk n

/-- C7: the extracted link sequence contains no fragment-only and no
script-protocol hrefs, has no duplicates, is a subsequence of the raw
collection that preserves first-seen order, and is empty when no nav
element and no navigation-, sidebar- or menu-class container exists. -/
theorem nav_links_contract (soup : HForest) :
    (∀ h ∈ extractNavigationLinks soup,
      pyStartsWith h (pys "#") = false ∧
      pyStartsWith h (pys "javascript:") = false) ∧
    (extractNavigationLinks soup).Nodup ∧
    List.Sublist (extractNavigationLinks soup) (rawNavLinks soup) ∧
    List.Pairwise (fun a b =>
      firstIdx a (rawNavLinks soup) < firstIdx b (rawNavLinks soup))
      (extractNavigationLinks soup) ∧
    ((findFirstF (isTagB (pys "nav")) soup).isNone = true →
     (findFirstF (fun n => isTagB (pys "div") n &&
        hasClassStr n (pys "navigation")) soup).isNone = true →
     (findFirstF (fun n => isTagB (pys "div") n &&
        hasClassIn n [pys "sidebar", pys "menu", pys "side-nav"]) soup).isNone = true →
     extractNavigationLinks soup = []) := by
  refine ⟨?_, ?_, ?_, ?_, ?_⟩
  · intro h hmem
    have hraw : h ∈ rawNavLinks soup := (dedupFirstAux_mem hmem).1
    have hok := rawNavLinks_hrefOk soup h hraw
    simp only [hrefOk, Bool.and_eq_true, Bool.not_eq_true'] at hok
    exact ⟨hok.1.2, hok.2⟩
  · exact dedupFirstAux_nodup _ _
  · exact dedupFirstAux_sublist _ _
  · exact dedupFirstAux_pairwise _ _
  · intro h1 h2 h3
    rw [Option.isNone_iff_eq_none] at h1 h2 h3
    unfold extractNavigationLinks rawNavLinks
    simp [h1, h2, h3, dedupFirst, dedupFirstAux]

/-- Witness for C7 on a page with no navigation containers. -/
theorem nav_links_contract_witness :
    extractNavigationLinks soupC7wit = [] :=
  (nav_links_contract soupC7wit).2.2.2.2 (by decide) (by decide) (by decide)

/- ### Drain-loop lemmas -/

theorem scrapePage_fst (w : World) (url : Str) (base : Option Str)
    (ce : Option (HForest → Str)) :
    (scrapePage w url base ce).1 = [scrapeFullUrl base url] := by
  unfold scrapePage
  cases hf : w.fetch (scrapeFullUrl base url) <;> simp [hf]

theorem scrapeFullUrl_abs (iu : Str) {l : Str} (h : isHttpAbs l = true) :
    scrapeFullUrl (some iu) l = l := by
  simp [scrapeFullUrl, h]

theorem drain_cons_skip (w : World) (ce : HForest → Str) (iu : Str)
    (scraped : List Str) (link : Str) (rest : List Str)
    (h : normalizeUrl link ∈ scraped) :
    drain w ce iu scraped (link :: rest) =
      ⟨(drain w ce iu scraped rest).fetches,
       (drain w ce iu scraped rest).writes,
       .skipped :: (drain w ce iu scraped rest).outcomes,
       (drain w ce iu scraped rest).aborted⟩ := by
  simp [drain, h]

theorem drain_cons_abort (w : World) (ce : HForest → Str) (iu : Str)
    (scraped : List Str) (link : Str) (rest : List Str)
    (h : normalizeUrl link ∉ scraped)
    (hf : w.fetch (scrapeFullUrl (some iu) link) = none) :
    drain w ce iu scraped (link :: rest) =
      ⟨[scrapeFullUrl (some iu) link], [], [], true⟩ := by
  simp [drain, h, scrapePage, hf]

theorem drain_cons_fetch (w : World) (ce : HForest → Str) (iu : Str)
    (scraped : List Str) (link : Str) (rest : List Str) (dom : HForest)
    (h : normalizeUrl link ∉ scraped)
    (hf : w.fetch (scrapeFullUrl (some iu) link) = some dom) :
    drain w ce iu scraped (link :: rest) =
      ⟨scrapeFullUrl (some iu) link ::
         (drain w ce iu (normalizeUrl link :: scraped) rest).fetches,
       pageEntry (scrapeFullUrl (some iu) link) (convertStep w (ce dom)) ::
         (drain w ce iu (normalizeUrl link :: scraped) rest).writes,
       .fetched :: (drain w ce iu (normalizeUrl link :: scraped) rest).outcomes,
       (drain w ce iu (normalizeUrl link :: scraped) rest).aborted⟩ := by
  simp [drain, h, scrapePage, hf]

theorem drain_outcomes_le (w : World) (ce : HForest → Str) (iu : Str) :
    ∀ (links scraped : List Str),
      (drain w ce iu scraped links).outcomes.length ≤ links.length := by
  intro links
  induction links with
  | nil => intro scraped; simp [drain]
  | cons link rest ih =>
    intro scraped
    by_cases h : normalizeUrl link ∈ scraped
    · rw [drain_cons_skip w ce iu scraped link rest h]
      simpa using Nat.succ_le_succ (ih scraped)
    · cases hf : w.fetch (scrapeFullUrl (some iu) link) with
      | none =>
        rw [drain_cons_abort w ce iu scraped link rest h hf]
        simp
      | some dom =>
        rw [drain_cons_fetch w ce iu scraped link rest dom h hf]
        simpa using Nat.succ_le_succ (ih _)

theorem drain_fetches_from (w : World) (ce : HForest → Str) (iu : Str) :
    ∀ (links scraped : List Str), ∀ f ∈ (drain w ce iu scraped links).fetches,
      ∃ l ∈ links, f = scrapeFullUrl (some iu) l := by
  intro links
  induction links with
  | nil => intro scraped f hf; simp [drain] at hf
  | cons link rest ih =>
    intro scraped f hf
    by_cases h : normalizeUrl link ∈ scraped
    · rw [drain_cons_skip w ce iu scraped link rest h] at hf
      rcases ih scraped f hf with ⟨l, hl, he⟩
      exact ⟨l, List.mem_cons_of_mem _ hl, he⟩
    · cases hfe : w.fetch (scrapeFullUrl (some iu) link) with
      | none =>
        rw [drain_cons_abort w ce iu scraped link rest h hfe] at hf
        simp at hf
        exact ⟨link, List.mem_cons_self _ _, hf⟩
      | some dom =>
        rw [drain_cons_fetch w ce iu scraped link rest dom h hfe] at hf
        rcases List.mem_cons.mp hf with hf | hf
        · exact ⟨link, List.mem_cons_self _ _, hf⟩
        · rcases ih _ f hf with ⟨l, hl, he⟩
          exact ⟨l, List.mem_cons_of_mem _ hl, he⟩

theorem drain_invariant (w : World) (ce : HForest → Str) (iu : Str) :
    ∀ (links scraped : List Str), (∀ l ∈ links, isHttpAbs l = true) →
      List.Pairwise (fun a b => normalizeUrl a ≠ normalizeUrl b)
        (drain w ce iu scraped links).fetches ∧
      ∀ f ∈ (drain w ce iu scraped links).fetches,
        f ∈ links ∧ normalizeUrl f ∉ scraped := by
  intro links
  induction links with
  | nil => intro scraped _; simp [drain]
  | cons link rest ih =>
    intro scraped habs
    have habs' : ∀ l ∈ rest, isHttpAbs l = true :=
      fun l hl => habs l (List.mem_cons_of_mem _ hl)
    have hful : scrapeFullUrl (some iu) link = link :=
      scrapeFullUrl_abs iu (habs link (List.mem_cons_self _ _))
    by_cases h : normalizeUrl link ∈ scraped
    · rw [drain_cons_skip w ce iu scraped link rest h]
      rcases ih scraped habs' with ⟨hpw, hmem⟩
      exact ⟨hpw, fun f hf =>
        ⟨List.mem_cons_of_mem _ (hmem f hf).1, (hmem f hf).2⟩⟩
    · cases hfe : w.fetch (scrapeFullUrl (some iu) link) with
      | none =>
        rw [drain_cons_abort w ce iu scraped link rest h hfe]
        constructor
        · simp
        · intro f hf
          simp at hf
          subst hf
          rw [hful]
          exact ⟨List.mem_cons_self _ _, h⟩
      | some dom =>
        rw [drain_cons_fetch w ce iu scraped link rest dom h hfe]
        rcases ih (normalizeUrl link :: scraped) habs' with ⟨hpw, hmem⟩
        constructor
        · refine List.pairwise_cons.mpr ⟨?_, hpw⟩
          intro f hf
          rw [hful]
          have hnm := (hmem f hf).2
          intro hne
          apply hnm
          rw [← hne]
          exact List.mem_cons_self _ _
        · intro f hf
          rcases List.mem_cons.mp hf with hf | hf
          · rw [hf, hful]
            exact ⟨List.mem_cons_self _ _, h⟩
          · have := hmem f hf
            exact ⟨List.mem_cons_of_mem _ this.1,
              fun hm => this.2 (List.mem_cons_of_mem _ hm)⟩

theorem drain_skip_of_visited (w : World) (ce : HForest → Str) (iu : Str) :
    ∀ (links scraped : List Str) (j : Nat) (lj : Str),
      links[j]? = some lj → normalizeUrl lj ∈ scraped →
      j < (drain w ce iu scraped links).outcomes.length →
      (drain w ce iu scraped links).outcomes[j]? = some .skipped := by
  intro links
  induction links with
  | nil => intro scraped j lj hj _ _; simp at hj
  | cons link rest ih =>
    intro scraped j lj hj hmem hlen
    by_cases h : normalizeUrl link ∈ scraped
    · rw [drain_cons_skip w ce iu scraped link rest h] at hlen ⊢
      cases j with
      | zero => simp
      | succ jj =>
        simp only [List.getElem?_cons_succ] at hj ⊢
        simp only [List.length_cons] at hlen
        exact ih scraped jj lj hj hmem (by omega)
    · cases hfe : w.fetch (scrapeFullUrl (some iu) link) with
      | none =>
        rw [drain_cons_abort w ce iu scraped link rest h hfe] at hlen
        simp at hlen
      | some dom =>
        rw [drain_cons_fetch w ce iu scraped link rest dom h hfe] at hlen ⊢
        cases j with
        | zero =>
          simp only [List.getElem?_cons_zero, Option.some_inj] at hj
          exact absurd (hj ▸ hmem) h
        | succ jj =>
          simp only [List.getElem?_cons_succ] at hj ⊢
          simp only [List.length_cons] at hlen
          exact ih _ jj lj hj (List.mem_cons_of_mem _ hmem) (by omega)

theorem drain_dup_skipped (w : World) (ce : HForest → Str) (iu : Str) :
    ∀ (links scraped : List Str) (i j : Nat) (li lj : Str), i < j →
      links[i]? = some li → links[j]? = some lj →
      normalizeUrl li = normalizeUrl lj →
      j < (drain w ce iu scraped links).outcomes.length →
      (drain w ce iu scraped links).outcomes[j]? = some .skipped := by
  intro links
  induction links with
  | nil => intro scraped i j li lj _ hi _ _ _; simp at hi
  | cons link rest ih =>
    intro scraped i j li lj hij hi hj heq hlen
    cases j with
    | zero => omega
    | succ jj =>
      by_cases h : normalizeUrl link ∈ scraped
      · rw [drain_cons_skip w ce iu scraped link rest h] at hlen ⊢
        simp only [List.getElem?_cons_succ] at hj ⊢
        simp only [List.length_cons] at hlen
        cases i with
        | zero =>
          simp only [List.getElem?_cons_zero, Option.some_inj] at hi
          subst hi
          refine drain_skip_of_visited w ce iu rest scraped jj lj hj ?_ (by omega)
          rw [← heq]
          exact h
        | succ ii =>
          simp only [List.getElem?_cons_succ] at hi
          exact ih scraped ii jj li lj (by omega) hi hj heq (by omega)
      · cases hfe : w.fetch (scrapeFullUrl (some iu) link) with
        | none =>
          rw [drain_cons_abort w ce iu scraped link rest h hfe] at hlen
          simp at hlen
        | some dom =>
          rw [drain_cons_fetch w ce iu scraped link rest dom h hfe] at hlen ⊢
          simp only [List.getElem?_cons_succ] at hj ⊢
          simp only [List.length_cons] at hlen
          cases i with
          | zero =>
            simp only [List.getElem?_cons_zero, Option.some_inj] at hi
            subst hi
            refine drain_skip_of_visited w ce iu rest _ jj lj hj ?_ (by omega)
            rw [← heq]
            exact List.mem_cons_self _ _
          | succ ii =>
            simp only [List.getElem?_cons_succ] at hi
            exact ih _ ii jj li lj (by omega) hi hj heq (by omega)

theorem runMain_eq (cfg : Config) (ts : Str) (w : World) (soup : HForest)
    (hs : w.fetch (initialUrlOf cfg) = some soup) :
    runMain cfg ts w =
      ⟨initialUrlOf cfg :: initialUrlOf cfg ::
         (drain w ((getExtractors soup).1) (initialUrlOf cfg)
           [initialUrlOf cfg] (runSlice cfg w)).fetches,
       seedEntry ts ((detectDocType soup).getD (pys "generic")) (initialUrlOf cfg)
           (convertStep w ((getExtractors soup).1 soup)) ::
         (drain w ((getExtractors soup).1) (initialUrlOf cfg)
           [initialUrlOf cfg] (runSlice cfg w)).writes,
       (drain w ((getExtractors soup).1) (initialUrlOf cfg)
         [initialUrlOf cfg] (runSlice cfg w)).outcomes,
       (drain w ((getExtractors soup).1) (initialUrlOf cfg)
         [initialUrlOf cfg] (runSlice cfg w)).aborted⟩ := by
  unfold runMain runSlice runFrontier seedSoup
  simp [hs, scrapePage, scrapeFullUrl]

/- ### C1 — frontier fetch error handling -/

/-- C1, evaluation at the failing input: a transport error on the first
frontier entry terminates the whole run (`fetch_url` calls
`sys.exit(1)`, and `SystemExit` is not caught by the loop's
`except Exception`): the run is aborted, the second frontier link is
never fetched, and the artifact holds only the seed entry. -/
theorem frontier_fetch_error_aborts :
    (runMain cfgC1 (pys "T") worldC1).aborted = true ∧
    (runMain cfgC1 (pys "T") worldC1).fetches =
      [pys "http://e1", pys "http://e1", pys "http://e1/p1"] ∧
    (runMain cfgC1 (pys "T") worldC1).writes.length = 1 ∧
    pys "http://e1/p2" ∉ (runMain cfgC1 (pys "T") worldC1).fetches := by
  decide

/- ### C2 — at-most-once fetch semantics -/

/-- C2, counterexample: in a run over a single-page site the seed URL is
fetched twice (once for format detection, once inside `scrape_page` for
content), so two fetches of the run target URLs with equal normalized
forms and the seed is fetched a second time. -/
theorem seed_double_fetch_counterexample :
    (runMain cfgC2cex (pys "T") worldC2cex).fetches =
      [pys "http://e2", pys "http://e2"] ∧
    ¬ List.Pairwise (fun a b => normalizeUrl a ≠ normalizeUrl b)
      (runMain cfgC2cex (pys "T") worldC2cex).fetches := by
  constructor
  · decide
  · intro hpw
    rw [show (runMain cfgC2cex (pys "T") worldC2cex).fetches =
      [pys "http://e2", pys "http://e2"] from by decide] at hpw
    exact (List.pairwise_cons.mp hpw).1 _ (List.mem_cons_self _ _) rfl

theorem pySliceTo_sublist (l : List α) (m : Int) :
    List.Sublist (pySliceTo l m) l := by
  unfold pySliceTo
  split <;> exact List.take_sublist _ _

theorem pySliceTo_of_nonneg (l : List α) (m : Int) (h : 0 ≤ m) :
    pySliceTo l m = l.take m.toNat := by
  simp [pySliceTo, not_lt.mpr h]

theorem length_filter_add_length_filter_not (p : α → Bool) (l : List α) :
    (l.filter p).length + (l.filter (fun a => !(p a))).length = l.length := by
  induction l with
  | nil => simp
  | cons x xs ih =>
    cases hx : p x <;> simp [List.filter_cons, hx, ← ih] <;> omega

theorem buildFrontier_length (iu : Str) (raw : List Str) :
    (buildFrontier iu raw).length +
      (raw.filter (fun l => normalizeUrl (absolutizeLink iu l) = iu)).length =
      raw.length := by
  induction raw with
  | nil => simp [buildFrontier]
  | cons x xs ih =>
    by_cases hx : normalizeUrl (absolutizeLink iu x) = iu
    · simp only [buildFrontier, List.map_cons, List.filter_cons,
        List.length_cons] at ih ⊢
      simp [hx] at ih ⊢
      omega
    · simp only [buildFrontier, List.map_cons, List.filter_cons,
        List.length_cons] at ih ⊢
      simp [hx] at ih ⊢
      omega

/-- C2 as amended: the visited set is consulted before every frontier
fetch — the frontier URLs actually fetched have pairwise-distinct
normalized forms, none of them normalizes to the seed entry of the
visited set, and (when the seed URL is normalization-stable) the seed is
fetched exactly twice — once for detection, once for content — and never
as a frontier entry; a frontier built from 5 discovered links of which 2
normalize identically to the seed has at most 3 entries. -/
theorem visited_set_enforced (cfg : Config) (ts : Str) (w : World)
    (hidem : normalizeUrl (initialUrlOf cfg) = initialUrlOf cfg)
    (hseed : (w.fetch (initialUrlOf cfg)).isSome = true)
    (habs : ∀ l ∈ runFrontier cfg w, isHttpAbs l = true) :
    ((runMain cfg ts w).fetches.take 2 =
      [initialUrlOf cfg, initialUrlOf cfg]) ∧
    List.Pairwise (fun a b => normalizeUrl a ≠ normalizeUrl b)
      ((runMain cfg ts w).fetches.drop 2) ∧
    (∀ f ∈ (runMain cfg ts w).fetches.drop 2,
      normalizeUrl f ≠ initialUrlOf cfg ∧ f ≠ initialUrlOf cfg) ∧
    (∀ raw : List Str, raw.length = 5 →
      (raw.filter (fun l =>
        normalizeUrl (absolutizeLink (initialUrlOf cfg) l) =
          initialUrlOf cfg)).length = 2 →
      (buildFrontier (initialUrlOf cfg) raw).length ≤ 3) := by
  rcases Option.isSome_iff_exists.mp hseed with ⟨soup, hs⟩
  rw [runMain_eq cfg ts w soup hs]
  have habs' : ∀ l ∈ runSlice cfg w, isHttpAbs l = true :=
    fun l hl => habs l ((pySliceTo_sublist _ _).mem hl)
  rcases drain_invariant w ((getExtractors soup).1) (initialUrlOf cfg)
    (runSlice cfg w) [initialUrlOf cfg] habs' with ⟨hpw, hmem⟩
  refine ⟨by simp, by simpa using hpw, ?_, ?_⟩
  · intro f hf
    simp only [List.drop_succ_cons, List.drop_zero] at hf
    have h2 := (hmem f hf).2
    have hne : normalizeUrl f ≠ initialUrlOf cfg := by
      intro he
      exact h2 (by rw [he]; exact List.mem_cons_self _ _)
    refine ⟨hne, ?_⟩
    intro he
    apply hne
    rw [he, hidem]
  · intro raw hlen hcnt
    have hbf := buildFrontier_length (initialUrlOf cfg) raw
    rw [hlen, hcnt] at hbf
    omega

/-- Witness for C2's amended form: a seed page with 5 discovered links,
2 of which normalize to the seed URL. -/
theorem visited_set_enforced_witness :
    ((runMain cfgC2wit (pys "T") worldC2wit).fetches.take 2 =
      [initialUrlOf cfgC2wit, initialUrlOf cfgC2wit]) ∧
    List.Pairwise (fun a b => normalizeUrl a ≠ normalizeUrl b)
      ((runMain cfgC2wit (pys "T") worldC2wit).fetches.drop 2) ∧
    (∀ f ∈ (runMain cfgC2wit (pys "T") worldC2wit).fetches.drop 2,
      normalizeUrl f ≠ initialUrlOf cfgC2wit ∧ f ≠ initialUrlOf cfgC2wit) ∧
    (∀ raw : List Str, raw.length = 5 →
      (raw.filter (fun l =>
        normalizeUrl (absolutizeLink (initialUrlOf cfgC2wit) l) =
          initialUrlOf cfgC2wit)).length = 2 →
      (buildFrontier (initialUrlOf cfgC2wit) raw).length ≤ 3) :=
  visited_set_enforced cfgC2wit (pys "T") worldC2wit (by decide) (by decide)
    (by decide)

/- ### C6 — max-page cap -/

/-- C6: with a positive max-page cap `m`, the drain loop iterates over at
most `min m |frontier|` entries and every frontier fetch comes from the
first `m` frontier entries; in the concrete 10-link, cap-2 scenario
exactly the first 2 frontier entries are processed, the artifact has 3
entries, and the remaining 8 links are never fetched. -/
theorem max_pages_cap :
    (∀ (cfg : Config) (ts : Str) (w : World) (m : Int),
      cfg.maxPages = some m → 0 < m →
      (w.fetch (initialUrlOf cfg)).isSome = true →
      (runMain cfg ts w).outcomes.length ≤
        min m.toNat (runFrontier cfg w).length ∧
      (∀ f ∈ (runMain cfg ts w).fetches.drop 2,
        ∃ l ∈ (runFrontier cfg w).take m.toNat,
          f = scrapeFullUrl (some (initialUrlOf cfg)) l)) ∧
    (runMain cfgC6 (pys "T") worldC6).writes.length = 3 ∧
    (runMain cfgC6 (pys "T") worldC6).outcomes = [.fetched, .fetched] ∧
    (runMain cfgC6 (pys "T") worldC6).fetches =
      [pys "http://e6", pys "http://e6", pys "http://e6/1", pys "http://e6/2"] ∧
    (∀ u ∈ [pys "http://e6/3", pys "http://e6/4", pys "http://e6/5",
        pys "http://e6/6", pys "http://e6/7", pys "http://e6/8",
        pys "http://e6/9", pys "http://e6/10"],
      u ∉ (runMain cfgC6 (pys "T") worldC6).fetches) := by
  refine ⟨?_, by decide, by decide, by decide, by decide⟩
  intro cfg ts w m hm hpos hseed
  rcases Option.isSome_iff_exists.mp hseed with ⟨soup, hs⟩
  rw [runMain_eq cfg ts w soup hs]
  have hmz : m ≠ 0 := by omega
  have hmax : effectiveMax cfg (runFrontier cfg w).length = m := by
    unfold effectiveMax
    rw [hm]
    simp [hmz]
  have hslice : runSlice cfg w = (runFrontier cfg w).take m.toNat := by
    unfold runSlice
    rw [hmax]
    exact pySliceTo_of_nonneg _ _ (by omega)
  rw [hslice]
  constructor
  · have h1 := drain_outcomes_le w ((getExtractors soup).1) (initialUrlOf cfg)
      ((runFrontier cfg w).take m.toNat) [initialUrlOf cfg]
    simp only [List.length_take] at h1
    simpa [List.length_take] using h1
  · intro f hf
    simp only [List.drop_succ_cons, List.drop_zero] at hf
    exact drain_fetches_from w ((getExtractors soup).1) (initialUrlOf cfg)
      ((runFrontier cfg w).take m.toNat) [initialUrlOf cfg] f hf

/-- Witness for C6's general cap bound at the concrete scenario. -/
theorem max_pages_cap_witness :
    (runMain cfgC6 (pys "T") worldC6).outcomes.length ≤
      min (Int.toNat 2) (runFrontier cfgC6 worldC6).length :=
  (max_pages_cap.1 cfgC6 (pys "T") worldC6 2 rfl (by omega) (by decide)).1

/- ### C10 — duplicate frontier entries -/

/-- C10: frontier construction deduplicates only against the seed, so two
distinct raw links with equal normalized forms both enter the frontier;
within the drained slice, any entry preceded by an entry with the same
normalized form is skipped via the visited check; and each skipped
duplicate still consumes a slot of the max-page cap (concretely: with cap
2, the duplicate fills the second slot and the third link is never
fetched). -/
theorem dup_frontier_entries :
    (∀ (cfg : Config) (ts : Str) (w : World) (i j : Nat) (li lj : Str),
      i < j →
      (runSlice cfg w)[i]? = some li →
      (runSlice cfg w)[j]? = some lj →
      normalizeUrl li = normalizeUrl lj →
      j < (runMain cfg ts w).outcomes.length →
      (runMain cfg ts w).outcomes[j]? = some .skipped) ∧
    (runFrontier cfgC10 worldC10 =
      [pys "http://ten/a/", pys "http://ten/a", pys "http://ten/b"]) ∧
    pys "http://ten/a/" ≠ pys "http://ten/a" ∧
    normalizeUrl (pys "http://ten/a/") = normalizeUrl (pys "http://ten/a") ∧
    runSlice cfgC10 worldC10 = [pys "http://ten/a/", pys "http://ten/a"] ∧
    (runMain cfgC10 (pys "T") worldC10).outcomes = [.fetched, .skipped] ∧
    (runMain cfgC10 (pys "T") worldC10).fetches =
      [pys "http://ten", pys "http://ten", pys "http://ten/a/"] ∧
    pys "http://ten/b" ∉ (runMain cfgC10 (pys "T") worldC10).fetches := by
  refine ⟨?_, by decide, by decide, by decide, by decide, by decide,
    by decide, by decide⟩
  intro cfg ts w i j li lj hij hi hj heq hlen
  cases hs : w.fetch (initialUrlOf cfg) with
  | none =>
    have : runMain cfg ts w = ⟨[initialUrlOf cfg], [], [], true⟩ := by
      unfold runMain
      simp [hs]
    rw [this] at hlen
    simp at hlen
  | some soup =>
    rw [runMain_eq cfg ts w soup hs] at hlen ⊢
    exact drain_dup_skipped w ((getExtractors soup).1) (initialUrlOf cfg)
      (runSlice cfg w) [initialUrlOf cfg] i j li lj hij hi hj heq hlen

/-- Witness for C10's general skip rule at the concrete duplicate pair. -/
theorem dup_frontier_entries_witness :
    (runMain cfgC10 (pys "T") worldC10).outcomes[1]? = some .skipped :=
  dup_frontier_entries.1 cfgC10 (pys "T") worldC10 0 1
    (pys "http://ten/a/") (pys "http://ten/a") (by omega) (by decide)
    (by decide) (by decide) (by decide)

/- ### Character-level lemmas for the URL parser -/

theorem char_toNat_ofNat {n : Nat} (h : n < 55296) : (Char.ofNat n).toNat = n := by
  unfold Char.ofNat
  rw [dif_pos (Or.inl (by omega))]
  simp [Char.ofNatAux, Char.toNat, UInt32.toNat, UInt32.ofNatCore,
    BitVec.toNat_ofNat]

theorem pyLowerChar_toNat (c : Char) :
    (pyLowerChar c).toNat =
      if 65 ≤ c.toNat ∧ c.toNat ≤ 90 then c.toNat + 32 else c.toNat := by
  unfold pyLowerChar
  split
  · rename_i h
    exact char_toNat_ofNat (by omega)
  · rfl

theorem pyLowerChar_eq_self (c : Char) (h : ¬ (65 ≤ c.toNat ∧ c.toNat ≤ 90)) :
    pyLowerChar c = c := by
  unfold pyLowerChar
  rw [if_neg h]

theorem pyLowerChar_idem (c : Char) : pyLowerChar (pyLowerChar c) = pyLowerChar c := by
  by_cases h : 65 ≤ c.toNat ∧ c.toNat ≤ 90
  · apply pyLowerChar_eq_self
    rw [pyLowerChar_toNat, if_pos h]
    omega
  · rw [pyLowerChar_eq_self c h, pyLowerChar_eq_self c h]

theorem map_pyLowerChar_idem (l : Str) :
    (l.map pyLowerChar).map pyLowerChar = l.map pyLowerChar := by
  induction l with
  | nil => rfl
  | cons x xs ih => simp [pyLowerChar_idem, ih]

theorem isSchemeChar_pyLowerChar {c : Char} (h : isSchemeChar c = true) :
    isSchemeChar (pyLowerChar c) = true := by
  simp only [isSchemeChar, isAsciiAlpha, Bool.or_eq_true, Bool.and_eq_true,
    decide_eq_true_eq] at h ⊢
  rw [pyLowerChar_toNat]
  split <;> omega

theorem isAsciiAlpha_pyLowerChar {c : Char} (h : isAsciiAlpha c = true) :
    isAsciiAlpha (pyLowerChar c) = true := by
  simp only [isAsciiAlpha, Bool.or_eq_true, Bool.and_eq_true,
    decide_eq_true_eq] at h ⊢
  rw [pyLowerChar_toNat]
  split <;> omega

theorem isSchemeChar_toNat_facts {c : Char} (h : isSchemeChar c = true) :
    32 < c.toNat ∧ c.toNat ≠ 58 ∧ c.toNat ≠ 47 ∧ c.toNat ≠ 35 ∧
    c.toNat ≠ 63 ∧ c.toNat ≠ 9 ∧ c.toNat ≠ 13 ∧ c.toNat ≠ 10 := by
  simp only [isSchemeChar, isAsciiAlpha, Bool.or_eq_true, Bool.and_eq_true,
    decide_eq_true_eq] at h
  omega

theorem char_ne_of_toNat_ne {c d : Char} (h : c.toNat ≠ d.toNat) : c ≠ d := by
  intro he
  exact h (he ▸ rfl)

theorem isSchemeChar_ne_colon {c : Char} (h : isSchemeChar c = true) : c ≠ ':' :=
  char_ne_of_toNat_ne (isSchemeChar_toNat_facts h).2.1

theorem isSchemeChar_ne_slash {c : Char} (h : isSchemeChar c = true) : c ≠ '/' :=
  char_ne_of_toNat_ne (isSchemeChar_toNat_facts h).2.2.1

theorem isSchemeChar_not_unsafe {c : Char} (h : isSchemeChar c = true) :
    isUnsafeUrlChar c = false := by
  have hf := isSchemeChar_toNat_facts h
  simp only [isUnsafeUrlChar, Bool.or_eq_false_iff, decide_eq_false_iff_not]
  refine ⟨⟨fun he => ?_, fun he => ?_⟩, fun he => ?_⟩
  · subst he; exact hf.2.2.2.2.2.1 rfl
  · subst he; exact hf.2.2.2.2.2.2.1 rfl
  · subst he; exact hf.2.2.2.2.2.2.2 rfl

theorem isSchemeChar_not_c0 {c : Char} (h : isSchemeChar c = true) :
    isC0OrSpace c = false := by
  have hf := isSchemeChar_toNat_facts h
  simp only [isC0OrSpace, decide_eq_false_iff_not]
  omega

theorem isAsciiAlpha_isSchemeChar {c : Char} (h : isAsciiAlpha c = true) :
    isSchemeChar c = true := by
  simp only [isSchemeChar, Bool.or_eq_true]
  exact Or.inl (Or.inl (Or.inl (Or.inl h)))

/- ### List-splitting lemmas for the URL parser -/

theorem splitFirstOn_of_not_mem {c : Char} {l : Str} (h : c ∉ l) :
    splitFirstOn c l = (l, none) := by
  induction l with
  | nil => rfl
  | cons x xs ih =>
    have hx : x ≠ c := fun he => h (he ▸ List.mem_cons_self _ _)
    have hxs : c ∉ xs := fun hm => h (List.mem_cons_of_mem _ hm)
    simp [splitFirstOn, hx, ih hxs]

theorem splitFirstOn_append {c : Char} {a : Str} (b : Str) (h : c ∉ a) :
    splitFirstOn c (a ++ c :: b) = (a, some b) := by
  induction a with
  | nil => simp [splitFirstOn]
  | cons x xs ih =>
    have hx : x ≠ c := fun he => h (he ▸ List.mem_cons_self _ _)
    have hxs : c ∉ xs := fun hm => h (List.mem_cons_of_mem _ hm)
    simp [splitFirstOn, hx, ih hxs]

theorem splitFirstOn_fst_subset (c : Char) (l : Str) :
    ∀ x ∈ (splitFirstOn c l).1, x ∈ l := by
  induction l with
  | nil => simp [splitFirstOn]
  | cons y ys ih =>
    by_cases hy : y = c
    · simp [splitFirstOn, hy]
    · intro x hx
      simp only [splitFirstOn, hy, if_false] at hx
      simp only [List.mem_cons] at hx ⊢
      rcases hx with hx | hx
      · exact Or.inl hx
      · exact Or.inr (ih x hx)

theorem splitFirstOn_fst_not_mem (c : Char) (l : Str) :
    c ∉ (splitFirstOn c l).1 := by
  induction l with
  | nil => simp [splitFirstOn]
  | cons y ys ih =>
    by_cases hy : y = c
    · simp [splitFirstOn, hy]
    · simp only [splitFirstOn, hy, if_false]
      intro hmem
      rcases List.mem_cons.mp hmem with h | h
      · exact hy h.symm
      · exact ih h

theorem splitFirstOn_snd_subset (c : Char) (l : Str) :
    ∀ {post}, (splitFirstOn c l).2 = some post → ∀ x ∈ post, x ∈ l := by
  induction l with
  | nil => intro post h; simp [splitFirstOn] at h
  | cons y ys ih =>
    intro post h x hx
    by_cases hy : y = c
    · simp only [splitFirstOn, hy, if_pos rfl] at h
      cases h
      exact List.mem_cons_of_mem _ hx
    · simp only [splitFirstOn, hy, if_false] at h
      exact List.mem_cons_of_mem _ (ih h x hx)

theorem takeWhile_append_of_all {p : Char → Bool} (a b : Str)
    (h : ∀ x ∈ a, p x = true) :
    (a ++ b).takeWhile p = a ++ b.takeWhile p := by
  induction a with
  | nil => simp
  | cons x xs ih =>
    have hx : p x = true := h x (List.mem_cons_self _ _)
    simp only [List.cons_append, List.takeWhile_cons, hx, if_true]
    rw [ih (fun y hy => h y (List.mem_cons_of_mem _ hy))]

theorem dropWhile_append_of_all {p : Char → Bool} (a b : Str)
    (h : ∀ x ∈ a, p x = true) :
    (a ++ b).dropWhile p = b.dropWhile p := by
  induction a with
  | nil => simp
  | cons x xs ih =>
    have hx : p x = true := h x (List.mem_cons_self _ _)
    simp only [List.cons_append, List.dropWhile_cons, hx, if_true]
    exact ih (fun y hy => h y (List.mem_cons_of_mem _ hy))

theorem takeWhile_cons_neg {p : Char → Bool} {x : Char} (xs : Str)
    (h : p x = false) : (x :: xs).takeWhile p = [] := by
  simp [List.takeWhile_cons, h]

theorem dropWhile_cons_neg {p : Char → Bool} {x : Char} (xs : Str)
    (h : p x = false) : (x :: xs).dropWhile p = x :: xs := by
  simp [List.dropWhile_cons, h]

/- ### `rstripSlash` lemmas -/

theorem rstripSlash_append (a b : Str) :
    rstripSlash (a ++ b) =
      if rstripSlash b = [] then rstripSlash a else a ++ rstripSlash b := by
  by_cases hb : rstripSlash b = []
  · rw [if_pos hb]
    unfold rstripSlash at hb ⊢
    have hb' : b.reverse.dropWhile (fun c => c = '/') = [] :=
      List.reverse_eq_nil_iff.mp hb
    rw [List.reverse_append, List.dropWhile_append, if_pos
      (List.isEmpty_iff.mpr hb')]
  · rw [if_neg hb]
    unfold rstripSlash at hb ⊢
    have hb' : ¬ (b.reverse.dropWhile (fun c => c = '/')).isEmpty = true := by
      rw [List.isEmpty_iff]
      intro h
      exact hb (by rw [h]; rfl)
    rw [List.reverse_append, List.dropWhile_append, if_neg hb',
      List.reverse_append, List.reverse_reverse]

theorem rstripSlash_eq_self_of_not_mem {l : Str} (h : '/' ∉ l) :
    rstripSlash l = l := by
  unfold rstripSlash
  rcases hr : l.reverse with _ | ⟨x, xs⟩
  · simp at hr
    simp [hr]
  · have hx : x ∈ l := by
      have : x ∈ l.reverse := hr ▸ List.mem_cons_self _ _
      simpa using this
    have hxs : x ≠ '/' := fun he => h (he ▸ hx)
    rw [dropWhile_cons_neg _ (by simp [hxs])]
    rw [← hr, List.reverse_reverse]

theorem rstripSlash_prefix_self (l : Str) : rstripSlash l <+: l := by
  unfold rstripSlash
  have h1 : l.reverse.dropWhile (fun c => c = '/') <:+ l.reverse :=
    List.dropWhile_suffix _
  rcases h1 with ⟨t, ht⟩
  refine ⟨t.reverse, ?_⟩
  rw [← List.reverse_append, ht, List.reverse_reverse]

theorem rstripSlash_idem (l : Str) : rstripSlash (rstripSlash l) = rstripSlash l := by
  unfold rstripSlash
  rw [List.reverse_reverse]
  rw [List.dropWhile_idempotent]

theorem rstripSlash_ne_nil_last {l : Str} (h : rstripSlash l ≠ []) :
    ∃ a t, rstripSlash l = t ++ [a] ∧ a ≠ '/' := by
  unfold rstripSlash at h ⊢
  rcases hd : l.reverse.dropWhile (fun c => c = '/') with _ | ⟨x, xs⟩
  · rw [hd] at h; simp at h
  · have hx : ¬ (x = '/') := by
      have := List.head_dropWhile_not (fun c : Char => c = '/') l.reverse
      rw [hd] at this
      simpa using this (by simp)
    refine ⟨x, xs.reverse, ?_, hx⟩
    simp [hd]

theorem rstripSlash_append_self {a : Str} (b : Str) (h : rstripSlash b ≠ []) :
    rstripSlash (a ++ rstripSlash b) = a ++ rstripSlash b := by
  rw [rstripSlash_append, rstripSlash_idem, if_neg h]

/- ### Parser-stage lemmas -/

theorem urlsplitModel_parts (u dflt : Str) :
    urlsplitModel u dflt =
      ⟨(splitScheme (urlClean u) dflt).1,
       (splitNetloc (splitScheme (urlClean u) dflt).2).1,
       (splitQuery (splitFragment
         (splitNetloc (splitScheme (urlClean u) dflt).2).2).1).1,
       (splitQuery (splitFragment
         (splitNetloc (splitScheme (urlClean u) dflt).2).2).1).2,
       (splitFragment (splitNetloc (splitScheme (urlClean u) dflt).2).2).2⟩ := by
  unfold urlsplitModel
  rcases h1 : splitScheme (urlClean u) dflt with ⟨s, u2⟩
  rcases h2 : splitNetloc u2 with ⟨n, u3⟩
  rcases h3 : splitFragment u3 with ⟨u4, fr⟩
  rcases h4 : splitQuery u4 with ⟨p, q⟩
  simp [h1, h2, h3, h4]

theorem splitScheme_eq (url dflt : Str) :
    splitScheme url dflt = (dflt, url) ∨
    (0 < (url.takeWhile (fun c => c ≠ ':')).length ∧
     isAsciiAlpha (url.headD ' ') = true ∧
     (url.takeWhile (fun c => c ≠ ':')).all isSchemeChar = true ∧
     splitScheme url dflt =
       ((url.takeWhile (fun c => c ≠ ':')).map pyLowerChar,
        url.drop ((url.takeWhile (fun c => c ≠ ':')).length + 1))) := by
  unfold splitScheme
  by_cases h1 : (url.takeWhile (fun c => c ≠ ':')).length = url.length
  · rw [if_pos h1]
    exact Or.inl rfl
  · rw [if_neg h1]
    by_cases h2 : 0 < (url.takeWhile (fun c => c ≠ ':')).length ∧
        isAsciiAlpha (url.headD ' ') = true ∧
        (url.takeWhile (fun c => c ≠ ':')).all isSchemeChar = true
    · rw [if_pos h2]
      exact Or.inr ⟨h2.1, h2.2.1, h2.2.2, rfl⟩
    · rw [if_neg h2]
      exact Or.inl rfl

theorem splitScheme_snd_subset (url dflt : Str) :
    ∀ x ∈ (splitScheme url dflt).2, x ∈ url := by
  rcases splitScheme_eq url dflt with h | ⟨_, _, _, h⟩ <;> rw [h]
  · intro x hx; exact hx
  · intro x hx; exact List.mem_of_mem_drop hx

theorem splitNetloc_not_slash {u : Str}
    (h : ¬ (pys "//").isPrefixOf u = true) : splitNetloc u = ([], u) := by
  simp [splitNetloc, h]

theorem splitNetloc_cons2 (rest : Str) :
    splitNetloc ('/' :: '/' :: rest) =
      (rest.takeWhile (fun c => ¬ isNetlocSep c),
       rest.dropWhile (fun c => ¬ isNetlocSep c)) := by
  have hpre : (pys "//").isPrefixOf ('/' :: '/' :: rest) = true := by
    simp [pys, List.isPrefixOf]
  simp [splitNetloc, hpre]

theorem splitNetloc_fst_no_sep (u : Str) :
    ∀ x ∈ (splitNetloc u).1, isNetlocSep x = false := by
  unfold splitNetloc
  split
  · intro x hx
    have := List.mem_takeWhile_imp hx
    simpa using this
  · intro x hx
    simp at hx

theorem splitNetloc_snd_shape (u : Str) :
    (splitNetloc u).2 = u ∨ (splitNetloc u).2 = [] ∨
    isNetlocSep ((splitNetloc u).2.headD ' ') = true := by
  unfold splitNetloc
  split
  · rcases hd : (u.drop 2).dropWhile (fun c => ¬ isNetlocSep c) with _ | ⟨x, xs⟩
    · simp [hd]
    · right; right
      have := List.head_dropWhile_not (fun c => ¬ isNetlocSep c) (u.drop 2)
        (by rw [hd]; simp)
      simp only [hd] at this ⊢
      simpa using this
  · left; rfl

theorem splitNetloc_fst_append_snd (u : Str) :
    (splitNetloc u).1 ≠ [] → (splitNetloc u).1 ++ (splitNetloc u).2 = u.drop 2 := by
  unfold splitNetloc
  split
  · intro _
    exact List.takeWhile_append_dropWhile _ _
  · intro h
    exact absurd rfl h

theorem splitFragment_of_not_mem {l : Str} (h : '#' ∉ l) :
    splitFragment l = (l, []) := by
  unfold splitFragment
  rw [splitFirstOn_of_not_mem h]

theorem splitQuery_of_not_mem {l : Str} (h : '?' ∉ l) :
    splitQuery l = (l, []) := by
  unfold splitQuery
  rw [splitFirstOn_of_not_mem h]

theorem splitQuery_append {x : Str} (q : Str) (h : '?' ∉ x) :
    splitQuery (x ++ '?' :: q) = (x, q) := by
  unfold splitQuery
  rw [splitFirstOn_append q h]

theorem splitFragment_fst_subset (l : Str) :
    ∀ x ∈ (splitFragment l).1, x ∈ l := by
  unfold splitFragment
  rcases h : splitFirstOn '#' l with ⟨pre, o⟩
  have hsub := splitFirstOn_fst_subset '#' l
  rw [h] at hsub
  cases o <;> simpa using hsub

theorem splitFragment_fst_not_mem (l : Str) : '#' ∉ (splitFragment l).1 := by
  unfold splitFragment
  rcases h : splitFirstOn '#' l with ⟨pre, o⟩
  have := splitFirstOn_fst_not_mem '#' l
  rw [h] at this
  cases o <;> simpa using this

theorem splitQuery_fst_subset (l : Str) : ∀ x ∈ (splitQuery l).1, x ∈ l := by
  unfold splitQuery
  rcases h : splitFirstOn '?' l with ⟨pre, o⟩
  have hsub := splitFirstOn_fst_subset '?' l
  rw [h] at hsub
  cases o <;> simpa using hsub

theorem splitQuery_fst_not_mem (l : Str) : '?' ∉ (splitQuery l).1 := by
  unfold splitQuery
  rcases h : splitFirstOn '?' l with ⟨pre, o⟩
  have := splitFirstOn_fst_not_mem '?' l
  rw [h] at this
  cases o <;> simpa using this

theorem splitQuery_snd_subset (l : Str) : ∀ x ∈ (splitQuery l).2, x ∈ l := by
  unfold splitQuery
  rcases h : splitFirstOn '?' l with ⟨pre, o⟩
  cases o with
  | none => simp
  | some post =>
    have := @splitFirstOn_snd_subset '?' l post (by rw [h])
    simpa using this

theorem splitFirstOn_cons_ne {c x : Char} (xs : Str) (h : x ≠ c) :
    splitFirstOn c (x :: xs) =
      (x :: (splitFirstOn c xs).1, (splitFirstOn c xs).2) := by
  simp [splitFirstOn, h]

theorem splitFragment_cons_ne {x : Char} (xs : Str) (h : x ≠ '#') :
    (splitFragment (x :: xs)).1 = x :: (splitFragment xs).1 := by
  unfold splitFragment
  rw [splitFirstOn_cons_ne xs h]
  rcases hs : splitFirstOn '#' xs with ⟨pre, o⟩
  cases o <;> simp [hs]

theorem splitQuery_cons_ne {x : Char} (xs : Str) (h : x ≠ '?') :
    (splitQuery (x :: xs)).1 = x :: (splitQuery xs).1 := by
  unfold splitQuery
  rw [splitFirstOn_cons_ne xs h]
  rcases hs : splitFirstOn '?' xs with ⟨pre, o⟩
  cases o <;> simp [hs]

theorem splitFragment_cons_self (xs : Str) : splitFragment ('#' :: xs) = ([], xs) := by
  simp [splitFragment, splitFirstOn]

theorem splitQuery_cons_self (xs : Str) : splitQuery ('?' :: xs) = ([], xs) := by
  simp [splitQuery, splitFirstOn]

theorem splitNetloc_fst_ne_snd_shape (u : Str) (h : (splitNetloc u).1 ≠ []) :
    (splitNetloc u).2 = [] ∨
    isNetlocSep ((splitNetloc u).2.headD ' ') = true := by
  rcases hbr : (pys "//").isPrefixOf u with _ | _
  · rw [splitNetloc_not_slash (by simp [hbr])] at h
    exact absurd rfl h
  · unfold splitNetloc
    rw [if_pos hbr]
    rcases hd : (u.drop 2).dropWhile (fun c => ¬ isNetlocSep c) with _ | ⟨x, xs⟩
    · simp
    · right
      have := List.head_dropWhile_not (fun c => ¬ isNetlocSep c) (u.drop 2)
        (by rw [hd]; simp)
      simp only [hd] at this ⊢
      simpa using this

theorem takeWhile_headD {p : Char → Bool} {l : Str} (d : Char)
    (h : l.takeWhile p ≠ []) : (l.takeWhile p).headD d = l.headD d := by
  cases l with
  | nil => simp at h
  | cons x xs =>
    by_cases hx : p x = true
    · simp [List.takeWhile_cons, hx]
    · rw [takeWhile_cons_neg xs (by simpa using hx)] at h
      exact absurd rfl h

theorem urlsplit_scheme_spec (u : Str)
    (h : (urlsplitModel u []).scheme ≠ []) :
    (urlsplitModel u []).scheme.all isSchemeChar = true ∧
    (urlsplitModel u []).scheme.map pyLowerChar = (urlsplitModel u []).scheme ∧
    isAsciiAlpha ((urlsplitModel u []).scheme.headD ' ') = true := by
  rw [urlsplitModel_parts] at h ⊢
  simp only at h ⊢
  rcases splitScheme_eq (urlClean u) [] with he | ⟨hlen, halpha, hall, he⟩
  · rw [he] at h
    exact absurd rfl h
  · rw [he]
    simp only
    refine ⟨?_, map_pyLowerChar_idem _, ?_⟩
    · rw [List.all_eq_true] at hall ⊢
      intro x hx
      rcases List.mem_map.mp hx with ⟨y, hy, hyx⟩
      exact hyx ▸ isSchemeChar_pyLowerChar (hall y hy)
    · have hne : (urlClean u).takeWhile (fun c => c ≠ ':') ≠ [] := by
        intro hnil
        rw [hnil] at hlen
        simp at hlen
      rcases hw : (urlClean u).takeWhile (fun c => c ≠ ':') with _ | ⟨x, xs⟩
      · exact absurd hw hne
      · have hxx := @takeWhile_headD (fun c => c ≠ ':') (urlClean u) ' ' hne
        rw [hw] at hxx
        simp only [List.headD_cons] at hxx
        simp only [List.map_cons, List.headD_cons]
        rw [hxx]
        exact isAsciiAlpha_pyLowerChar halpha

theorem urlsplit_netloc_no_sep (u dflt : Str) :
    ∀ x ∈ (urlsplitModel u dflt).netloc, isNetlocSep x = false := by
  rw [urlsplitModel_parts]
  exact splitNetloc_fst_no_sep _

theorem urlsplit_path_no_hash_qmark (u dflt : Str) :
    '#' ∉ (urlsplitModel u dflt).path ∧ '?' ∉ (urlsplitModel u dflt).path := by
  rw [urlsplitModel_parts]
  simp only
  constructor
  · intro hmem
    exact splitFragment_fst_not_mem _ (splitQuery_fst_subset _ _ hmem)
  · exact splitQuery_fst_not_mem _

theorem urlsplit_query_no_hash (u dflt : Str) :
    '#' ∉ (urlsplitModel u dflt).query := by
  rw [urlsplitModel_parts]
  intro hmem
  exact splitFragment_fst_not_mem _ (splitQuery_snd_subset _ _ hmem)

theorem urlsplit_path_shape (u dflt : Str)
    (h : (urlsplitModel u dflt).netloc ≠ []) :
    (urlsplitModel u dflt).path = [] ∨
    ∃ t, (urlsplitModel u dflt).path = '/' :: t := by
  rw [urlsplitModel_parts] at h ⊢
  simp only at h ⊢
  rcases splitNetloc_fst_ne_snd_shape _ h with h3 | h3
  · rw [h3]
    left
    simp [splitFragment, splitQuery, splitFirstOn]
  · rcases hu3 : (splitNetloc (splitScheme (urlClean u) dflt).2).2 with _ | ⟨x, xs⟩
    · rw [hu3] at h3
      simp only [List.headD_nil] at h3
      exact absurd h3 (by decide)
    · rw [hu3] at h3
      simp only [List.headD_cons] at h3
      simp only [isNetlocSep, Bool.or_eq_true, decide_eq_true_eq] at h3
      rcases h3 with (h3 | h3) | h3
      · right
        subst h3
        rw [splitFragment_cons_ne xs (by decide)]
        rw [splitQuery_cons_ne _ (by decide)]
        exact ⟨_, rfl⟩
      · subst h3
        left
        rw [splitFragment_cons_ne xs (by decide)]
        rw [splitQuery_cons_self]
      · subst h3
        left
        rw [splitFragment_cons_self]
        simp [splitQuery, splitFirstOn]

theorem dropWhile_ne_nil_of_mem {p : Char → Bool} {a : Str} {x : Char}
    (hx : x ∈ a) (hpx : p x = false) : a.dropWhile p ≠ [] := by
  induction a with
  | nil => simp at hx
  | cons y ys ih =>
    rw [List.dropWhile_cons]
    rcases List.mem_cons.mp hx with h | h
    · subst h
      rw [hpx]
      simp
    · by_cases hy : p y = true
      · rw [if_pos hy]
        exact ih h
      · rw [if_neg hy]
        simp

theorem takeWhile_append_of_stop {p : Char → Bool} {a : Str} (b : Str)
    (h : a.dropWhile p ≠ []) :
    (a ++ b).takeWhile p = a.takeWhile p ∧
    (a ++ b).dropWhile p = a.dropWhile p ++ b := by
  induction a with
  | nil => simp at h
  | cons x xs ih =>
    by_cases hx : p x = true
    · rw [List.dropWhile_cons, if_pos hx] at h
      rcases ih h with ⟨h1, h2⟩
      constructor
      · simp only [List.cons_append, List.takeWhile_cons, hx, if_true, h1]
      · simp only [List.cons_append, List.dropWhile_cons, hx, if_true, h2]
    · have hx' : p x = false := by simpa using hx
      constructor
      · rw [List.cons_append, takeWhile_cons_neg _ hx', takeWhile_cons_neg _ hx']
      · rw [List.cons_append, dropWhile_cons_neg _ hx', dropWhile_cons_neg _ hx']
        simp

theorem splitFirstOn_decomp {c : Char} {l post : Str}
    (h : (splitFirstOn c l).2 = some post) :
    l = (splitFirstOn c l).1 ++ c :: post := by
  induction l generalizing post with
  | nil => simp [splitFirstOn] at h
  | cons x xs ih =>
    by_cases hx : x = c
    · subst hx
      simp only [splitFirstOn, if_pos rfl] at h ⊢
      cases h
      rfl
    · simp only [splitFirstOn, hx, if_false] at h ⊢
      rw [List.cons_append]
      exact congrArg (x :: ·) (ih h)

theorem splitFirstOn_snd_none_iff (c : Char) (l : Str) :
    (splitFirstOn c l).2 = none ↔ c ∉ l := by
  constructor
  · intro h hmem
    induction l with
    | nil => simp at hmem
    | cons x xs ih =>
      by_cases hx : x = c
      · simp [splitFirstOn, hx] at h
      · simp only [splitFirstOn, hx, if_false] at h
        rcases List.mem_cons.mp hmem with hm | hm
        · exact hx hm.symm
        · exact ih h hm
  · intro h
    rw [splitFirstOn_of_not_mem h]

theorem splitFirstOn_append_left {c : Char} {a : Str} (b : Str) {post : Str}
    (h : (splitFirstOn c a).2 = some post) :
    splitFirstOn c (a ++ b) = ((splitFirstOn c a).1, some (post ++ b)) := by
  induction a generalizing post with
  | nil => simp [splitFirstOn] at h
  | cons x xs ih =>
    by_cases hx : x = c
    · subst hx
      simp only [splitFirstOn, if_pos rfl] at h ⊢
      cases h
      simp [splitFirstOn]
    · simp only [splitFirstOn, hx, if_false, List.append_eq] at h ⊢
      rw [ih h]

theorem splitAtLastSlash_append {na pb : Str}
    {before last : Str} (hpb : splitAtLastSlash pb = some (before, last)) :
    splitAtLastSlash (na ++ pb) = some (na ++ before, last) := by
  unfold splitAtLastSlash at hpb ⊢
  rcases hsp : splitFirstOn '/' pb.reverse with ⟨pre, o⟩
  rw [hsp] at hpb
  cases o with
  | none => simp at hpb
  | some revBefore =>
    simp only [Option.some_inj] at hpb
    injection hpb with h1 h2
    subst h1
    subst h2
    have hsp2 : (splitFirstOn '/' pb.reverse).2 = some revBefore := by
      rw [hsp]
    have := splitFirstOn_append_left na.reverse hsp2
    rw [List.reverse_append, this, hsp]
    simp

theorem splitAtLastSlash_decomp {l before last : Str}
    (h : splitAtLastSlash l = some (before, last)) :
    l = before ++ '/' :: last ∧ '/' ∉ last := by
  unfold splitAtLastSlash at h
  rcases hsp : splitFirstOn '/' l.reverse with ⟨pre, o⟩
  rw [hsp] at h
  cases o with
  | none => simp at h
  | some revBefore =>
    simp only [Option.some_inj] at h
    injection h with h1 h2
    subst h1
    subst h2
    have hd := @splitFirstOn_decomp '/' l.reverse revBefore (by rw [hsp])
    rw [hsp] at hd
    simp only at hd
    constructor
    · have hll : l.reverse.reverse = (pre ++ '/' :: revBefore).reverse := by
        rw [← hd]
      rw [List.reverse_reverse] at hll
      rw [hll]
      simp
    · intro hmem
      have hpre : '/' ∈ pre := by simpa using hmem
      have := splitFirstOn_fst_not_mem '/' l.reverse
      rw [hsp] at this
      exact this hpre

theorem splitAtLastSlash_of_not_mem {l : Str} (h : '/' ∉ l) :
    splitAtLastSlash l = none := by
  unfold splitAtLastSlash
  have : '/' ∉ l.reverse := by simpa using h
  rw [splitFirstOn_of_not_mem this]

theorem splitAtLastSlash_of_mem {l : Str} (h : '/' ∈ l) :
    ∃ before last, splitAtLastSlash l = some (before, last) := by
  unfold splitAtLastSlash
  rcases hsp : splitFirstOn '/' l.reverse with ⟨pre, o⟩
  cases o with
  | none =>
    have : '/' ∉ l.reverse := by
      rw [← splitFirstOn_snd_none_iff '/']
      rw [hsp]
    simp at this
    exact absurd h this
  | some revBefore => exact ⟨revBefore.reverse, pre.reverse, rfl⟩

theorem splitparamsModel_eq_some {l before last : Str}
    (hsl : splitAtLastSlash l = some (before, last)) :
    splitparamsModel l =
      (match splitFirstOn ';' last with
       | (seg, some ps) => (before ++ '/' :: seg, ps)
       | (_, none) => (l, [])) := by
  unfold splitparamsModel
  rw [hsl]

theorem splitparamsModel_eq_none {l : Str}
    (hsl : splitAtLastSlash l = none) :
    splitparamsModel l =
      (match splitFirstOn ';' l with
       | (seg, some ps) => (seg, ps)
       | (_, none) => (l, [])) := by
  unfold splitparamsModel
  rw [hsl]

theorem splitparamsModel_fst_prefix (l : Str) : (splitparamsModel l).1 <+: l := by
  rcases hsl : splitAtLastSlash l with _ | ⟨before, last⟩
  · rw [splitparamsModel_eq_none hsl]
    rcases hsp : splitFirstOn ';' l with ⟨seg, o⟩
    cases o with
    | none => simp [hsp]
    | some ps =>
      simp only
      have hd := @splitFirstOn_decomp ';' l ps (by rw [hsp])
      rw [hsp] at hd
      exact ⟨';' :: ps, hd.symm⟩
  · rw [splitparamsModel_eq_some hsl]
    rcases hsp : splitFirstOn ';' last with ⟨seg, o⟩
    cases o with
    | none => simp [hsp]
    | some ps =>
      simp only
      have hl := (splitAtLastSlash_decomp hsl).1
      have hd := @splitFirstOn_decomp ';' last ps (by rw [hsp])
      rw [hsp] at hd
      simp only at hd
      refine ⟨';' :: ps, ?_⟩
      rw [hl, hd]
      simp

theorem splitparams_ne_of_split {l before last seg ps : Str}
    (hsl : splitAtLastSlash l = some (before, last))
    (hsp : splitFirstOn ';' last = (seg, some ps)) :
    before ++ '/' :: seg ≠ l := by
  have hl := (splitAtLastSlash_decomp hsl).1
  have hd := @splitFirstOn_decomp ';' last ps (by rw [hsp])
  rw [hsp] at hd
  simp only at hd
  intro he
  have hlen : (before ++ '/' :: seg).length = l.length := by rw [he]
  rw [hl, hd] at hlen
  simp [List.length_append] at hlen

theorem splitparams_fixed_no_semi_last {l before last : Str}
    (hsl : splitAtLastSlash l = some (before, last))
    (h : splitparamsModel l = (l, [])) : ';' ∉ last := by
  intro hmem
  rcases hsp : splitFirstOn ';' last with ⟨seg, o⟩
  cases o with
  | none =>
    have := (splitFirstOn_snd_none_iff ';' last).mp (by rw [hsp])
    exact this hmem
  | some ps =>
    rw [splitparamsModel_eq_some hsl, hsp] at h
    simp only at h
    injection h with h1 _
    exact splitparams_ne_of_split hsl hsp h1

theorem splitparams_of_no_semi_last {l before last : Str}
    (hsl : splitAtLastSlash l = some (before, last))
    (h : ';' ∉ last) : splitparamsModel l = (l, []) := by
  rw [splitparamsModel_eq_some hsl, splitFirstOn_of_not_mem h]

theorem splitparams_suffix {na pb : Str}
    {t : Str} (hpb : pb = '/' :: t)
    (h : splitparamsModel (na ++ pb) = (na ++ pb, [])) :
    splitparamsModel pb = (pb, []) := by
  have hmem : '/' ∈ pb := by rw [hpb]; exact List.mem_cons_self _ _
  rcases splitAtLastSlash_of_mem hmem with ⟨before, last, hsl⟩
  have hsl2 : splitAtLastSlash (na ++ pb) = some (na ++ before, last) :=
    splitAtLastSlash_append hsl
  have hns : ';' ∉ last := splitparams_fixed_no_semi_last hsl2 h
  exact splitparams_of_no_semi_last hsl hns

/- ### `urlparse` field transfer and cleanliness -/

theorem urlparseModel_fields (u d : Str) :
    (urlparseModel u d).scheme = (urlsplitModel u d).scheme ∧
    (urlparseModel u d).netloc = (urlsplitModel u d).netloc ∧
    (urlparseModel u d).query = (urlsplitModel u d).query ∧
    (urlparseModel u d).path <+: (urlsplitModel u d).path := by
  unfold urlparseModel
  by_cases hc : (urlsplitModel u d).scheme ∈ usesParams ∧
      ';' ∈ (urlsplitModel u d).path
  · rw [if_pos hc]
    exact ⟨rfl, rfl, rfl, splitparamsModel_fst_prefix _⟩
  · rw [if_neg hc]
    exact ⟨rfl, rfl, rfl, List.prefix_refl _⟩

theorem urlClean_no_unsafe (u : Str) :
    ∀ x ∈ urlClean u, isUnsafeUrlChar x = false := by
  intro x hx
  have := List.mem_filter.mp hx
  simpa using this.2

theorem urlClean_eq_self {l : Str}
    (hhead : isC0OrSpace (l.headD 'a') = false)
    (hcl : ∀ x ∈ l, isUnsafeUrlChar x = false) : urlClean l = l := by
  unfold urlClean
  have h1 : l.dropWhile isC0OrSpace = l := by
    cases l with
    | nil => rfl
    | cons x xs =>
      simp only [List.headD_cons] at hhead
      exact dropWhile_cons_neg xs hhead
  rw [h1]
  rw [List.filter_eq_self]
  intro x hx
  simpa using hcl x hx

theorem headD_append_left {l : Str} (r : Str) (d : Char) (h : l ≠ []) :
    (l ++ r).headD d = l.headD d := by
  cases l with
  | nil => exact absurd rfl h
  | cons x xs => rfl

theorem splitScheme_extract {s : Str} (rest : Str) (h1 : s ≠ [])
    (h2 : s.all isSchemeChar = true)
    (h3 : isAsciiAlpha (s.headD ' ') = true) :
    splitScheme (s ++ ':' :: rest) [] = (s.map pyLowerChar, rest) := by
  have hall : ∀ x ∈ s, x ≠ ':' := by
    intro x hx
    exact isSchemeChar_ne_colon (List.all_eq_true.mp h2 x hx)
  have htw : (s ++ ':' :: rest).takeWhile (fun c => c ≠ ':') = s := by
    rw [takeWhile_append_of_all s (':' :: rest) (by
      intro x hx; simpa using hall x hx)]
    rw [takeWhile_cons_neg _ (by simp)]
    simp
  unfold splitScheme
  rw [htw]
  have hlen : s.length ≠ (s ++ ':' :: rest).length := by
    simp [List.length_append]
  rw [if_neg hlen]
  have hhead : (s ++ ':' :: rest).headD ' ' = s.headD ' ' :=
    headD_append_left _ ' ' h1
  rw [if_pos ⟨List.length_pos.mpr h1, by rw [hhead]; exact h3, h2⟩]
  have hdrop : (s ++ ':' :: rest).drop (s.length + 1) = rest := by
    have : s ++ ':' :: rest = (s ++ [':']) ++ rest := by simp
    rw [this]
    have hl : (s ++ [':']).length = s.length + 1 := by simp
    rw [← hl, List.drop_left]
  rw [hdrop]

theorem rstrip_netloc_path {n : Str} (p : Str)
    (hn : ∀ x ∈ n, isNetlocSep x = false) :
    rstripSlash (n ++ p) = n ++ rstripSlash p := by
  have hslash : '/' ∉ n := by
    intro hmem
    have := hn '/' hmem
    simp [isNetlocSep] at this
  rw [rstripSlash_append]
  by_cases hp : rstripSlash p = []
  · rw [if_pos hp, hp, rstripSlash_eq_self_of_not_mem hslash, List.append_nil]
  · rw [if_neg hp]

theorem rstripSlash_scheme_sep {s : Str} (hs : ∀ x ∈ s, isSchemeChar x = true) :
    rstripSlash (s ++ pys "://") = s ++ [':'] := by
  have h1 : s ++ pys "://" = (s ++ [':']) ++ ['/', '/'] := by simp [pys]
  rw [h1, rstripSlash_append]
  have h2 : rstripSlash ['/', '/'] = [] := by decide
  rw [if_pos h2]
  apply rstripSlash_eq_self_of_not_mem
  intro hmem
  rcases List.mem_append.mp hmem with hm | hm
  · exact isSchemeChar_ne_slash (hs '/' hm) rfl
  · simp at hm

theorem isAsciiAlpha_not_c0 {c : Char} (h : isAsciiAlpha c = true) :
    isC0OrSpace c = false := by
  simp only [isAsciiAlpha, Bool.or_eq_true, Bool.and_eq_true,
    decide_eq_true_eq] at h
  simp only [isC0OrSpace, decide_eq_false_iff_not]
  omega

theorem headD_ne_nil {l : Str} (a b : Char) (h : l ≠ []) :
    l.headD a = l.headD b := by
  cases l with
  | nil => exact absurd rfl h
  | cons x xs => rfl

theorem takeWhile_eq_self_of_all {p : Char → Bool} {l : Str}
    (h : l.dropWhile p = []) : l.takeWhile p = l := by
  have := List.takeWhile_append_dropWhile p l
  rw [h, List.append_nil] at this
  exact this

theorem splitNetloc_fst_subset (v : Str) : ∀ x ∈ (splitNetloc v).1, x ∈ v := by
  unfold splitNetloc
  split
  · intro x hx
    exact List.mem_of_mem_drop ((List.takeWhile_prefix _).subset hx)
  · intro x hx
    simp at hx

theorem splitNetloc_snd_subset (v : Str) : ∀ x ∈ (splitNetloc v).2, x ∈ v := by
  unfold splitNetloc
  split
  · intro x hx
    exact List.mem_of_mem_drop ((List.dropWhile_suffix _).subset hx)
  · intro x hx
    exact hx

theorem urlsplit_netloc_subset (u dflt : Str) :
    ∀ x ∈ (urlsplitModel u dflt).netloc, x ∈ urlClean u := by
  rw [urlsplitModel_parts]
  intro x hx
  exact splitScheme_snd_subset _ _ _ (splitNetloc_fst_subset _ _ hx)

theorem urlsplit_path_subset (u dflt : Str) :
    ∀ x ∈ (urlsplitModel u dflt).path, x ∈ urlClean u := by
  rw [urlsplitModel_parts]
  intro x hx
  exact splitScheme_snd_subset _ _ _ (splitNetloc_snd_subset _ _
    (splitFragment_fst_subset _ _ (splitQuery_fst_subset _ _ hx)))

theorem urlsplit_query_subset (u dflt : Str) :
    ∀ x ∈ (urlsplitModel u dflt).query, x ∈ urlClean u := by
  rw [urlsplitModel_parts]
  intro x hx
  exact splitScheme_snd_subset _ _ _ (splitNetloc_snd_subset _ _
    (splitFragment_fst_subset _ _ (splitQuery_snd_subset _ _ hx)))

theorem normalizeUrl_eq (u : Str) :
    normalizeUrl u =
      rstripSlash ((urlparseModel u []).scheme ++ pys "://" ++
        (urlparseModel u []).netloc ++ (urlparseModel u []).path) ++
      (if (urlparseModel u []).query ≠ [] then '?' :: (urlparseModel u []).query
       else []) := by
  unfold normalizeUrl
  by_cases hq : (urlparseModel u []).query ≠ []
  · rw [if_pos hq, if_pos hq]
  · rw [if_neg hq, if_neg hq, List.append_nil]

theorem qpart_no_hash {q : Str} (hqh : '#' ∉ q) :
    '#' ∉ (if q ≠ [] then '?' :: q else []) := by
  by_cases hq : q ≠ []
  · rw [if_pos hq]
    intro hmem
    rcases List.mem_cons.mp hmem with h | h
    · exact absurd h (by decide)
    · exact hqh h
  · rw [if_neg hq]
    simp

theorem qpart_clean {q : Str} (hclq : ∀ x ∈ q, isUnsafeUrlChar x = false) :
    ∀ x ∈ (if q ≠ [] then '?' :: q else []), isUnsafeUrlChar x = false := by
  by_cases hq : q ≠ []
  · rw [if_pos hq]
    intro x hmem
    rcases List.mem_cons.mp hmem with h | h
    · subst h; decide
    · exact hclq x h
  · rw [if_neg hq]
    simp

theorem tail_process {X q : Str} (hx2 : '?' ∉ X) (hxh : '#' ∉ X)
    (hqh : '#' ∉ q) :
    splitQuery ((splitFragment (X ++ (if q ≠ [] then '?' :: q else []))).1)
      = (X, q) := by
  by_cases hq : q ≠ []
  · rw [if_pos hq]
    have hfr : '#' ∉ X ++ '?' :: q := by
      intro hmem
      rcases List.mem_append.mp hmem with h | h
      · exact hxh h
      · rcases List.mem_cons.mp h with h | h
        · exact absurd h (by decide)
        · exact hqh h
    rw [splitFragment_of_not_mem hfr]
    exact splitQuery_append q hx2
  · rw [if_neg hq, List.append_nil]
    rw [splitFragment_of_not_mem hxh]
    rw [splitQuery_of_not_mem hx2]
    push_neg at hq
    rw [hq]

theorem seps_split (B q : Str) :
    (B ++ (if q ≠ [] then '?' :: q else [])).takeWhile
      (fun c => ¬ isNetlocSep c) = B.takeWhile (fun c => ¬ isNetlocSep c) ∧
    (B ++ (if q ≠ [] then '?' :: q else [])).dropWhile
      (fun c => ¬ isNetlocSep c) =
      B.dropWhile (fun c => ¬ isNetlocSep c) ++
        (if q ≠ [] then '?' :: q else []) := by
  have hqp : (if q ≠ [] then '?' :: q else []).takeWhile
        (fun c => ¬ isNetlocSep c) = [] ∧
      (if q ≠ [] then '?' :: q else []).dropWhile
        (fun c => ¬ isNetlocSep c) = (if q ≠ [] then '?' :: q else []) := by
    by_cases hq : q ≠ []
    · rw [if_pos hq]
      constructor
      · exact takeWhile_cons_neg _ (by decide)
      · exact dropWhile_cons_neg _ (by decide)
    · rw [if_neg hq]
      simp
  by_cases hX : B.dropWhile (fun c => ¬ isNetlocSep c) = []
  · have hall : ∀ x ∈ B, (fun c => ¬ isNetlocSep c : Char → Bool) x = true := by
      simpa using List.dropWhile_eq_nil_iff.mp hX
    constructor
    · rw [takeWhile_append_of_all _ _ hall, hqp.1, List.append_nil,
        takeWhile_eq_self_of_all hX]
    · rw [dropWhile_append_of_all _ _ hall, hqp.2, hX]
      simp
  · exact takeWhile_append_of_stop _ hX

theorem urlparseModel_path_pos (u d : Str)
    (h : (urlsplitModel u d).scheme ∈ usesParams ∧
      ';' ∈ (urlsplitModel u d).path) :
    (urlparseModel u d).path = (splitparamsModel (urlsplitModel u d).path).1 := by
  unfold urlparseModel
  rw [if_pos h]

theorem urlparseModel_path_neg (u d : Str)
    (h : ¬ ((urlsplitModel u d).scheme ∈ usesParams ∧
      ';' ∈ (urlsplitModel u d).path)) :
    (urlparseModel u d).path = (urlsplitModel u d).path := by
  unfold urlparseModel
  rw [if_neg h]

theorem urlparse_assembled (s n p q O : Str)
    (hs1 : s ≠ []) (hs2 : s.all isSchemeChar = true)
    (hs3 : isAsciiAlpha (s.headD ' ') = true)
    (hs4 : s.map pyLowerChar = s)
    (hn : ∀ x ∈ n, isNetlocSep x = false)
    (hph : '#' ∉ p) (hpq : '?' ∉ p) (hqh : '#' ∉ q)
    (hcln : ∀ x ∈ n, isUnsafeUrlChar x = false)
    (hclp : ∀ x ∈ p, isUnsafeUrlChar x = false)
    (hclq : ∀ x ∈ q, isUnsafeUrlChar x = false)
    (hparams : s ∈ usesParams →
      splitparamsModel (rstripSlash p) = (rstripSlash p, []))
    (hO : O = rstripSlash (s ++ pys "://" ++ n ++ p) ++
      (if q ≠ [] then '?' :: q else [])) :
    (urlparseModel O []).scheme = s ∧ (urlparseModel O []).query = q ∧
    (urlparseModel O []).netloc ++ (urlparseModel O []).path =
      n ++ rstripSlash p := by
  have hsmem : ∀ x ∈ s, isSchemeChar x = true := List.all_eq_true.mp hs2
  have hassoc : s ++ pys "://" ++ n ++ p = (s ++ pys "://") ++ (n ++ p) := by
    simp [List.append_assoc]
  have hBP : rstripSlash (n ++ p) = n ++ rstripSlash p := rstrip_netloc_path p hn
  have hP1p : ∀ x ∈ rstripSlash p, x ∈ p := (rstripSlash_prefix_self p).subset
  have hnh : '#' ∉ n := by
    intro hmem
    have := hn '#' hmem
    simp [isNetlocSep] at this
  have hnq : '?' ∉ n := by
    intro hmem
    have := hn '?' hmem
    simp [isNetlocSep] at this
  have hB'h : '#' ∉ n ++ rstripSlash p := by
    intro hmem
    rcases List.mem_append.mp hmem with h | h
    · exact hnh h
    · exact hph (hP1p _ h)
  have hB'q : '?' ∉ n ++ rstripSlash p := by
    intro hmem
    rcases List.mem_append.mp hmem with h | h
    · exact hnq h
    · exact hpq (hP1p _ h)
  by_cases hb : n ++ rstripSlash p = []
  · -- the netloc-and-path block strips to nothing: O = s ++ ':' :: qpart
    have hOA : O = s ++ ':' :: (if q ≠ [] then '?' :: q else []) := by
      rw [hO, hassoc, rstripSlash_append, hBP, if_pos hb,
        rstripSlash_scheme_sep hsmem]
      simp
    have hclean : urlClean O = O := by
      apply urlClean_eq_self
      · rw [hOA, headD_append_left _ 'a' hs1, headD_ne_nil 'a' ' ' hs1]
        exact isAsciiAlpha_not_c0 hs3
      · rw [hOA]
        intro x hmem
        rcases List.mem_append.mp hmem with h | h
        · exact isSchemeChar_not_unsafe (hsmem x h)
        · rcases List.mem_cons.mp h with h | h
          · subst h; decide
          · exact qpart_clean hclq x h
    have hsch : splitScheme (urlClean O) [] =
        (s, (if q ≠ [] then '?' :: q else [])) := by
      rw [hclean, hOA, splitScheme_extract _ hs1 hs2 hs3, hs4]
    have hnet : splitNetloc (if q ≠ [] then '?' :: q else []) =
        ([], (if q ≠ [] then '?' :: q else [])) := by
      apply splitNetloc_not_slash
      by_cases hq : q ≠ []
      · rw [if_pos hq]
        simp [pys, List.isPrefixOf]
      · rw [if_neg hq]
        simp [pys, List.isPrefixOf]
    have htail := @tail_process [] q (by simp) (by simp) hqh
    simp only [List.nil_append] at htail
    have hfr2 : (splitFragment (if q ≠ [] then '?' :: q else [])).2 = [] := by
      unfold splitFragment
      rw [splitFirstOn_of_not_mem (qpart_no_hash hqh)]
    have hsplit : urlsplitModel O [] = ⟨s, [], [], q, []⟩ := by
      rw [urlsplitModel_parts, hsch]
      simp only [hnet, htail, hfr2]
    have hcne : ¬ ((urlsplitModel O []).scheme ∈ usesParams ∧
        ';' ∈ (urlsplitModel O []).path) := by
      rw [hsplit]
      simp
    have hsch2 : (urlparseModel O []).scheme = s := by
      rw [(urlparseModel_fields O []).1, hsplit]
    have hq2 : (urlparseModel O []).query = q := by
      rw [(urlparseModel_fields O []).2.2.1, hsplit]
    have hn2 : (urlparseModel O []).netloc = [] := by
      rw [(urlparseModel_fields O []).2.1, hsplit]
    have hp2 : (urlparseModel O []).path = [] := by
      rw [urlparseModel_path_neg O [] hcne, hsplit]
    refine ⟨hsch2, hq2, ?_⟩
    rw [hn2, hp2, hb]
    rfl
  · -- the stripped block is non-empty: O = s ++ "://" ++ block ++ qpart
    have hOB : O = s ++ ':' :: '/' :: '/' ::
        ((n ++ rstripSlash p) ++ (if q ≠ [] then '?' :: q else [])) := by
      rw [hO, hassoc, rstripSlash_append, hBP, if_neg hb]
      simp [pys]
    have hB'cl : ∀ x ∈ n ++ rstripSlash p, isUnsafeUrlChar x = false := by
      intro x hmem
      rcases List.mem_append.mp hmem with h | h
      · exact hcln x h
      · exact hclp x (hP1p _ h)
    have hclean : urlClean O = O := by
      apply urlClean_eq_self
      · rw [hOB, headD_append_left _ 'a' hs1, headD_ne_nil 'a' ' ' hs1]
        exact isAsciiAlpha_not_c0 hs3
      · rw [hOB]
        intro x hmem
        rcases List.mem_append.mp hmem with h | h
        · exact isSchemeChar_not_unsafe (hsmem x h)
        · rcases List.mem_cons.mp h with h | h
          · subst h; decide
          · rcases List.mem_cons.mp h with h | h
            · subst h; decide
            · rcases List.mem_cons.mp h with h | h
              · subst h; decide
              · rcases List.mem_append.mp h with h | h
                · exact hB'cl x h
                · exact qpart_clean hclq x h
    have hsch : splitScheme (urlClean O) [] =
        (s, '/' :: '/' :: ((n ++ rstripSlash p) ++
          (if q ≠ [] then '?' :: q else []))) := by
      rw [hclean, hOB, splitScheme_extract _ hs1 hs2 hs3, hs4]
    have hsp := seps_split (n ++ rstripSlash p) q
    have hXsub : ∀ x ∈ (n ++ rstripSlash p).dropWhile
        (fun c => ¬ isNetlocSep c), x ∈ n ++ rstripSlash p :=
      (List.dropWhile_suffix _).subset
    have hXq : '?' ∉ (n ++ rstripSlash p).dropWhile
        (fun c => ¬ isNetlocSep c) := fun hm => hB'q (hXsub _ hm)
    have hXh : '#' ∉ (n ++ rstripSlash p).dropWhile
        (fun c => ¬ isNetlocSep c) := fun hm => hB'h (hXsub _ hm)
    have htail := @tail_process ((n ++ rstripSlash p).dropWhile
      (fun c => ¬ isNetlocSep c)) q hXq hXh hqh
    have hfrag2 : (splitFragment (((n ++ rstripSlash p).dropWhile
        (fun c => ¬ isNetlocSep c)) ++ (if q ≠ [] then '?' :: q else []))).2
        = [] := by
      unfold splitFragment
      rw [splitFirstOn_of_not_mem (by
        intro hmem
        rcases List.mem_append.mp hmem with h | h
        · exact hXh h
        · exact qpart_no_hash hqh h)]
    have hsplit : urlsplitModel O [] =
        ⟨s, (n ++ rstripSlash p).takeWhile (fun c => ¬ isNetlocSep c),
         (n ++ rstripSlash p).dropWhile (fun c => ¬ isNetlocSep c), q, []⟩ := by
      rw [urlsplitModel_parts, hsch]
      simp only [splitNetloc_cons2]
      rw [hsp.1, hsp.2, htail, hfrag2]
    have hglue : (n ++ rstripSlash p).takeWhile (fun c => ¬ isNetlocSep c) ++
        (n ++ rstripSlash p).dropWhile (fun c => ¬ isNetlocSep c) =
        n ++ rstripSlash p := List.takeWhile_append_dropWhile _ _
    have hXP : (n ++ rstripSlash p).dropWhile (fun c => ¬ isNetlocSep c) =
        (rstripSlash p).dropWhile (fun c => ¬ isNetlocSep c) :=
      dropWhile_append_of_all _ _ (by
        intro x hx
        simp [hn x hx])
    have hschfix : (urlparseModel O []).scheme = s := by
      rw [(urlparseModel_fields O []).1, hsplit]
    have hqfix : (urlparseModel O []).query = q := by
      rw [(urlparseModel_fields O []).2.2.1, hsplit]
    have hnetfix : (urlparseModel O []).netloc =
        (n ++ rstripSlash p).takeWhile (fun c => ¬ isNetlocSep c) := by
      rw [(urlparseModel_fields O []).2.1, hsplit]
    have hpathfix : (urlparseModel O []).path =
        (n ++ rstripSlash p).dropWhile (fun c => ¬ isNetlocSep c) := by
      by_cases hc : s ∈ usesParams ∧
          ';' ∈ (n ++ rstripSlash p).dropWhile (fun c => ¬ isNetlocSep c)
      · have hXne : (n ++ rstripSlash p).dropWhile
            (fun c => ¬ isNetlocSep c) ≠ [] := by
          intro hnil
          rw [hnil] at hc
          simp at hc
        have hXfix : splitparamsModel ((n ++ rstripSlash p).dropWhile
            (fun c => ¬ isNetlocSep c)) =
            ((n ++ rstripSlash p).dropWhile (fun c => ¬ isNetlocSep c), []) := by
          rw [hXP] at hXne ⊢
          rcases hXd : (rstripSlash p).dropWhile
              (fun c => ¬ isNetlocSep c) with _ | ⟨x, xs⟩
          · exact absurd hXd hXne
          · have hhead := List.head_dropWhile_not
              (fun c => ¬ isNetlocSep c) (rstripSlash p) (by rw [hXd]; simp)
            simp only [hXd] at hhead
            simp only [List.head_cons] at hhead
            have hxsep : isNetlocSep x = true := by simpa using hhead
            have hxmem : x ∈ rstripSlash p := by
              have hx0 : x ∈ (rstripSlash p).dropWhile
                  (fun c => ¬ isNetlocSep c) := by
                rw [hXd]
                exact List.mem_cons_self x xs
              exact (List.dropWhile_suffix _).subset hx0
            have hxsl : x = '/' := by
              simp only [isNetlocSep, Bool.or_eq_true, decide_eq_true_eq]
                at hxsep
              rcases hxsep with (h | h) | h
              · exact h
              · exact absurd (h ▸ hxmem) (fun hm => hpq (hP1p _ hm))
              · exact absurd (h ▸ hxmem) (fun hm => hph (hP1p _ hm))
            subst hxsl
            have hdecomp : rstripSlash p =
                (rstripSlash p).takeWhile (fun c => ¬ isNetlocSep c) ++
                '/' :: xs := by
              rw [← hXd, List.takeWhile_append_dropWhile]
            exact @splitparams_suffix
              ((rstripSlash p).takeWhile (fun c => ¬ isNetlocSep c))
              ('/' :: xs) xs rfl
              (by rw [← hdecomp]; exact hparams hc.1)
        have hcond : (urlsplitModel O []).scheme ∈ usesParams ∧
            ';' ∈ (urlsplitModel O []).path := by
          rw [hsplit]
          exact hc
        rw [urlparseModel_path_pos O [] hcond, hsplit]
        exact hXfix ▸ rfl
      · have hcond : ¬ ((urlsplitModel O []).scheme ∈ usesParams ∧
            ';' ∈ (urlsplitModel O []).path) := by
          rw [hsplit]
          exact hc
        rw [urlparseModel_path_neg O [] hcond, hsplit]
    refine ⟨hschfix, hqfix, ?_⟩
    rw [hnetfix, hpathfix, hglue]

theorem rstrip_block_eq (a : Str) {n : Str} (p : Str)
    (hn : ∀ x ∈ n, isNetlocSep x = false) :
    rstripSlash (a ++ (n ++ rstripSlash p)) =
    rstripSlash (a ++ (n ++ p)) := by
  rw [rstripSlash_append a (n ++ rstripSlash p), rstripSlash_append a (n ++ p),
    rstrip_netloc_path (rstripSlash p) hn, rstrip_netloc_path p hn,
    rstripSlash_idem p]

/-- C3 (amended): URL normalization is idempotent for every URL whose
parse yields a non-empty scheme and whose stripped path carries no
parameter segment (no `;params` suffix on the last path component when
the scheme is in the parameter-using list):
`normalize_url (normalize_url u) = normalize_url u`. -/
theorem normalizeUrl_idem (u : Str)
    (hs : (urlparseModel u []).scheme ≠ [])
    (hp : (urlparseModel u []).scheme ∈ usesParams →
      splitparamsModel (rstripSlash (urlparseModel u []).path) =
        (rstripSlash (urlparseModel u []).path, [])) :
    normalizeUrl (normalizeUrl u) = normalizeUrl u := by
  have hfields := urlparseModel_fields u []
  have hs' : (urlsplitModel u []).scheme ≠ [] := by
    rw [← hfields.1]
    exact hs
  have hspec := urlsplit_scheme_spec u hs'
  have hpsub : ∀ x ∈ (urlparseModel u []).path, x ∈ (urlsplitModel u []).path :=
    hfields.2.2.2.subset
  have hsall : (urlparseModel u []).scheme.all isSchemeChar = true := by
    rw [hfields.1]
    exact hspec.1
  have hsmap : (urlparseModel u []).scheme.map pyLowerChar =
      (urlparseModel u []).scheme := by
    rw [hfields.1]
    exact hspec.2.1
  have hsalpha : isAsciiAlpha ((urlparseModel u []).scheme.headD ' ') = true := by
    rw [hfields.1]
    exact hspec.2.2
  have hnsep : ∀ x ∈ (urlparseModel u []).netloc, isNetlocSep x = false := by
    rw [hfields.2.1]
    exact urlsplit_netloc_no_sep u []
  have hph : '#' ∉ (urlparseModel u []).path :=
    fun hm => (urlsplit_path_no_hash_qmark u []).1 (hpsub _ hm)
  have hpq : '?' ∉ (urlparseModel u []).path :=
    fun hm => (urlsplit_path_no_hash_qmark u []).2 (hpsub _ hm)
  have hqh : '#' ∉ (urlparseModel u []).query := by
    rw [hfields.2.2.1]
    exact urlsplit_query_no_hash u []
  have hcln : ∀ x ∈ (urlparseModel u []).netloc, isUnsafeUrlChar x = false := by
    rw [hfields.2.1]
    intro x hx
    exact urlClean_no_unsafe u x (urlsplit_netloc_subset u [] x hx)
  have hclp : ∀ x ∈ (urlparseModel u []).path, isUnsafeUrlChar x = false :=
    fun x hx => urlClean_no_unsafe u x (urlsplit_path_subset u [] x (hpsub x hx))
  have hclq : ∀ x ∈ (urlparseModel u []).query, isUnsafeUrlChar x = false := by
    rw [hfields.2.2.1]
    intro x hx
    exact urlClean_no_unsafe u x (urlsplit_query_subset u [] x hx)
  have hmain := urlparse_assembled (urlparseModel u []).scheme
    (urlparseModel u []).netloc (urlparseModel u []).path
    (urlparseModel u []).query (normalizeUrl u)
    hs hsall hsalpha hsmap hnsep hph hpq hqh hcln hclp hclq hp
    (normalizeUrl_eq u)
  rw [normalizeUrl_eq (normalizeUrl u), hmain.1, hmain.2.1]
  conv_lhs => rw [List.append_assoc, hmain.2.2]
  rw [normalizeUrl_eq u]
  conv_rhs => rw [List.append_assoc]
  rw [rstrip_block_eq _ _ hnsep]

/-- C3 (refuted as stated): normalization is not idempotent for every
accepted URL. A path whose last segment carries `;params` loses one
layer per pass (`urlparse` strips params, the slash-stripped reassembly
exposes a new last segment), and a scheme-less URL gains a `://` prefix
on every pass. -/
theorem normalize_idempotent_counterexample :
    normalizeUrl (pys "http://h/x;y/") = pys "http://h/x;y" ∧
    normalizeUrl (pys "http://h/x;y") = pys "http://h/x" ∧
    normalizeUrl (normalizeUrl (pys "http://h/x;y/")) ≠
      normalizeUrl (pys "http://h/x;y/") ∧
    normalizeUrl (pys "example.com") = pys "://example.com" ∧
    normalizeUrl (normalizeUrl (pys "example.com")) ≠
      normalizeUrl (pys "example.com") := by decide

theorem normalizeUrl_idem_witness :
    (urlparseModel (pys "http://example.com/docs/a/") []).scheme ≠ [] ∧
    normalizeUrl (normalizeUrl (pys "http://example.com/docs/a/")) =
      normalizeUrl (pys "http://example.com/docs/a/") :=
  ⟨by decide, normalizeUrl_idem (pys "http://example.com/docs/a/")
    (by decide) (by decide)⟩

/-- C9 (refuted as stated): two URLs differing only by trailing slashes
on the path need not normalize identically. When the last path segment
carries `;params`, the trailing-slash variant keeps the segment while
the bare variant loses it to parameter splitting. -/
theorem normalize_invariance_counterexample :
    normalizeUrl (pys "http://h/a;b/") = pys "http://h/a;b" ∧
    normalizeUrl (pys "http://h/a;b") = pys "http://h/a" ∧
    normalizeUrl (pys "http://h/a;b/") ≠
      normalizeUrl (pys "http://h/a;b") := by decide

/-- C9 (amended): two URLs whose parses agree on scheme, netloc and
query, and whose parsed paths agree after stripping trailing slashes —
in particular URLs differing only by a fragment suffix, which never
reaches the parsed path — normalize to the same string. -/
theorem normalize_fragment_trailing_slash (u1 u2 : Str)
    (hs : (urlparseModel u1 []).scheme = (urlparseModel u2 []).scheme)
    (hn : (urlparseModel u1 []).netloc = (urlparseModel u2 []).netloc)
    (hq : (urlparseModel u1 []).query = (urlparseModel u2 []).query)
    (hp : rstripSlash (urlparseModel u1 []).path =
      rstripSlash (urlparseModel u2 []).path) :
    normalizeUrl u1 = normalizeUrl u2 := by
  rw [normalizeUrl_eq u1, normalizeUrl_eq u2, hs, hn, hq,
    rstripSlash_append ((urlparseModel u2 []).scheme ++ pys "://" ++
      (urlparseModel u2 []).netloc) (urlparseModel u1 []).path,
    rstripSlash_append ((urlparseModel u2 []).scheme ++ pys "://" ++
      (urlparseModel u2 []).netloc) (urlparseModel u2 []).path,
    hp]

theorem normalize_fragment_trailing_slash_witness :
    (urlparseModel (pys "http://example.com/docs/#intro") []).query =
      (urlparseModel (pys "http://example.com/docs") []).query ∧
    normalizeUrl (pys "http://example.com/docs/#intro") =
      normalizeUrl (pys "http://example.com/docs") :=
  ⟨by decide, normalize_fragment_trailing_slash
    (pys "http://example.com/docs/#intro") (pys "http://example.com/docs")
    (by decide) (by decide) (by decide) (by decide)⟩
